import Mathlib

/-!
Verification development for the topside plumbing simulator.

The plumbing engine (`topside/plumbing/plumbing_engine.py`) and the
ProcLang transformer (`topside/procedures/proclang.py`) are embedded
shallowly.  Node pressures and flow coefficients are modelled as exact
rationals; the simulation clock and the adaptive time resolution are
rationals as well (the Python code stores integers in them except on
one error path where a fractional timestep is written).  Helper
modules of the repository (`plumbing_utils`, `node`, `exceptions`,
`invalid_reasons`) are not part of the sources; the definitions that
stand in for them are marked `Modelled from the spec:` below.
-/

/-- Modelled from the spec: reserved atmospheric node id (`ATM = "atm"`). -/
def ATM : String := "atm"

/-- Modelled from the spec: smallest allowed simulation step, in
microseconds (`MIN_TIME_RES_MICROS`, from the missing `plumbing_utils`). -/
def MIN_TIME_RES_MICROS : ℚ := 1

/-- Modelled from the spec: initial adaptive time resolution of an empty
engine (`DEFAULT_TIME_RESOLUTION_MICROS`, from the missing `plumbing_utils`). -/
def DEFAULT_TIME_RESOLUTION_MICROS : ℚ := 10000

/-- Modelled from the spec: divisor applied when deriving `time_res` from a
component's minimum `teq` (`DEFAULT_RESOLUTION_SCALE`, from the missing
`plumbing_utils`). -/
def DEFAULT_RESOLUTION_SCALE : ℚ := 20

/-- Modelled from the spec: smallest allowed equilibration time, in
microseconds (`TEQ_MIN`, from the missing `plumbing_utils`). -/
def TEQ_MIN : ℚ := 1000

/-- Modelled from the spec: saturation flow coefficient for a fully open
edge (`FC_MAX`, from the missing `plumbing_utils`).  `FC` is
inverse-proportional to `teq` and saturates when `teq` reaches its
minimum, so `FC_MAX = 1 / TEQ_MIN`. -/
def FC_MAX : ℚ := 1 / TEQ_MIN

/-- Modelled from the spec: seconds-to-microseconds conversion
(`s_to_micros`, from the missing `plumbing_utils`). -/
def s_to_micros (s : ℚ) : ℚ := s * 1000000

/-- Modelled from the spec: numeric `teq`-to-`FC` conversion, clamped to
`FC_MAX` when `teq` is below the minimum (`teq_to_FC`, from the missing
`plumbing_utils`). -/
def teq_to_FC (teq : ℚ) : ℚ := if teq < TEQ_MIN then FC_MAX else 1 / teq

/-- Modelled from the spec: `FC`-to-`teq` conversion, the inverse of
`teq_to_FC` on legal values (`FC_to_teq`, from the missing
`plumbing_utils`). -/
def FC_to_teq (fc : ℚ) : ℚ := 1 / fc

/-- Error discriminators.  `exceptions.py` and `invalid_reasons.py` are
not part of the sources; the kinds of `BadInputError` raised by
`plumbing_engine.py` are distinguished by constructor instead of by
message text.  `nodeNotFound` stands for the message
`"Node ... not found in graph."` that `add_component` matches on. -/
inductive PlumbErr where
  | emptyEngine
  | invalidEngine
  | tsTooLow
  | tsNotInt
  | negativePressure (node : String)
  | nodeNotFound (node : String)
  | atmNonzero
  | componentInvalid
  | componentNotInMapping (componentName : String)
  | compNodeNotInMapping (componentName : String) (nodeName : String)
  | componentNotFound (componentName : String)
  | stateNotFound (stateId : String)
  | teqTooLow
  | edgeNotFound
  deriving DecidableEq, Repr

/-- Validation error records accumulated in the engine's `error_set`.
`invalid_reasons.py` is not part of the sources; modelled from the spec:
records carry a discriminator and, as applicable, `component_name`
and/or `node_name`, and a duplicate wrapper references its original. -/
inductive EngError where
  | invalidComponentName (componentName : String)
  | invalidComponentNode (componentName : String) (nodeName : String)
  | invalidNodePressure (nodeName : String)
  | dup (original : EngError)
  deriving DecidableEq, Repr

/-- Modelled from the spec: `invalid.add_error` deduplicates errors but
remembers the original through a duplicate wrapper. -/
def addError (er : EngError) (es : List EngError) : List EngError :=
  if er ∈ es then es ++ [.dup er] else es ++ [er]

/-- A directed edge of the main plumbing multigraph: source node, target
node, unique key (`"<component>.<edge_key>"`), and its `FC` attribute.
An edge freshly inserted by `add_component` has no `FC` attribute yet;
it is modelled as `0` until `set_component_state` assigns it. -/
structure GraphEdge where
  src : String
  dst : String
  key : String
  fc : ℚ
  deriving DecidableEq, Repr

/-- A component-internal directed edge `(src, dst, key)`. -/
structure CompEdge where
  src : String
  dst : String
  key : String
  deriving DecidableEq, Repr

/-- An immutable plumbing component: name, internal edge list, per-state
edge-to-`FC` maps, current state, and its validation verdict.
`plumbing_component.py` is not part of the sources; `valid` stands for
`is_valid()` (modelled from the spec: validity is decided at component
construction and only read by the engine). -/
structure PlumbingComponent where
  name : String
  edges : List CompEdge
  states : List (String × List (CompEdge × ℚ))
  currentState : String
  valid : Bool
  deriving DecidableEq, Repr

/-- The plumbing engine state: main graph (`nodes`, `edges`), per-node
bodies `(pressure, fixed)`, the `fixed_pressures` cache
(`node ↦ pressure`), live components, the component-to-graph node
mapping, adaptive time resolution, simulation clock, and the error set
(modelled as an insertion-ordered list). -/
structure Engine where
  nodes : List String
  edges : List GraphEdge
  body : List (String × (ℚ × Bool))
  fixedPressures : List (String × ℚ)
  componentDict : List (String × PlumbingComponent)
  mapping : List (String × List (String × String))
  timeRes : ℚ
  time : ℚ
  errors : List EngError
  deriving DecidableEq, Repr

/-- In-place association-list update with Python-dict semantics: replace
the value of an existing key in place, otherwise append. -/
def updateAssoc {α β : Type} [DecidableEq α] : List (α × β) → α → β → List (α × β)
  | [], k, v => [(k, v)]
  | (k', v') :: rest, k, v =>
      if k' = k then (k, v) :: rest else (k', v') :: updateAssoc rest k v

/-- Association-list lookup (Python-dict indexing). -/
def lookupAssoc {α β : Type} [DecidableEq α] : List (α × β) → α → Option β
  | [], _ => none
  | (k', v) :: rest, k => if k' = k then some v else lookupAssoc rest k

/-- Pressure stored in a node's body (`get_node_body(n).get_pressure()`);
`0` if the node carries no body. -/
def Engine.pressureOf (e : Engine) (n : String) : ℚ :=
  match lookupAssoc e.body n with
  | some pv => pv.1
  | none => 0

/-- `PlumbingEngine.set_pressure`: reject negative pressures, unknown
nodes, and non-zero atmospheric pressure (in the order of the source);
otherwise write pressure and fixed flag into the body and maintain the
`fixed_pressures` cache. -/
def Engine.setPressure (e : Engine) (n : String) (p : ℚ) (fixed : Bool) :
    Except PlumbErr Engine :=
  if p < 0 then .error (.negativePressure n)
  else if n ∉ e.nodes then .error (.nodeNotFound n)
  else if n = ATM ∧ p ≠ 0 then .error (.atmNonzero)
  else .ok { e with
      body := updateAssoc e.body n (p, fixed),
      fixedPressures :=
        if fixed then updateAssoc e.fixedPressures n p
        else e.fixedPressures.filter (fun kv => kv.1 ≠ n) }

/-- The per-node pressure delta of one sub-step of
`PlumbingEngine.step`, read off the snapshot `e`: starting from `0`,
subtract `FC ⬝ (p − p_m)` over out-edges with `p > p_m`, then add
`FC ⬝ (p_m − p)` over in-edges with `p < p_m`. -/
def Engine.dpOf (e : Engine) (n : String) : ℚ :=
  let p := e.pressureOf n
  let afterOut := (e.edges.filter (fun ed => ed.src = n)).foldl
      (fun dp ed =>
        if e.pressureOf ed.dst < p then dp - ed.fc * (p - e.pressureOf ed.dst) else dp) 0
  (e.edges.filter (fun ed => ed.dst = n)).foldl
      (fun dp ed =>
        if p < e.pressureOf ed.src then dp + ed.fc * (e.pressureOf ed.src - p) else dp)
      afterOut

/-- One iteration of the compute phase of a sub-step of
`PlumbingEngine.step`: skip `fixed_pressures` members and `ATM`,
otherwise record `p + dp ⬝ dt` in the `new_pressures` dict. -/
def Engine.computeStepFn (e : Engine) (dt : ℚ) (acc : List (String × ℚ)) (n : String) :
    List (String × ℚ) :=
  if n ∈ e.fixedPressures.map Prod.fst ∨ n = ATM then acc
  else updateAssoc acc n (e.pressureOf n + e.dpOf n * dt)

/-- The compute phase of one sub-step of `PlumbingEngine.step`: walk the
node list, skip `fixed_pressures` members and `ATM`, and record
`p + dp ⬝ dt` for every other node in the `new_pressures` dict `np`
(which the source carries across sub-steps). -/
def Engine.computeNew (e : Engine) (dt : ℚ) (np : List (String × ℚ)) :
    List (String × ℚ) :=
  e.nodes.foldl (e.computeStepFn dt) np

/-- The commit phase of one sub-step of `PlumbingEngine.step`: apply
`set_pressure(node, p)` over the `new_pressures` dict in order.  A
`BadInputError` from `set_pressure` propagates immediately; the engine
state accumulated so far is retained. -/
def Engine.commit : Engine → List (String × ℚ) → Except (PlumbErr × Engine) Engine
  | e, [] => .ok e
  | e, (n, p) :: rest =>
      match e.setPressure n p false with
      | .ok e' => e'.commit rest
      | .error er => .error (er, e)

/-- Result of `PlumbingEngine.step`: normal return, a raised error with
the engine state at the moment of the raise, or fuel exhaustion (the
model's marker for a non-terminating source loop). -/
inductive StepResult where
  | ok (e : Engine)
  | err (er : PlumbErr) (e : Engine)
  | fuelOut (e : Engine)
  deriving DecidableEq, Repr

/-- The engine state recorded in a `StepResult`. -/
def StepResult.state : StepResult → Engine
  | .ok e => e
  | .err _ e => e
  | .fuelOut e => e

/-- The clamped duration of the next sub-step: `time_res`, shortened so
the clock lands exactly on `max_time` (`if self.time + self.time_res >
max_time`). -/
def Engine.substepDt (e : Engine) (maxTime : ℚ) : ℚ :=
  if maxTime < e.time + e.timeRes then maxTime - e.time else e.timeRes

/-- The integration loop of `PlumbingEngine.step`: while `time <
max_time`, clamp the sub-step to land on `max_time`, compute the new
pressures from the current snapshot, commit them, and only then advance
the clock.  `fuel` bounds the number of iterations of the model. -/
def Engine.stepLoop : ℕ → ℚ → Engine → List (String × ℚ) → StepResult
  | 0, maxTime, e, _ => if e.time < maxTime then .fuelOut e else .ok e
  | fuel + 1, maxTime, e, np =>
      if e.time < maxTime then
        match e.commit (e.computeNew (e.substepDt maxTime) np) with
        | .ok e' =>
            Engine.stepLoop fuel maxTime { e' with time := e'.time + e.substepDt maxTime }
              (e.computeNew (e.substepDt maxTime) np)
        | .error (er, ebad) => .err er ebad
      else .ok e

/-- Iteration budget handed to `stepLoop`; provably sufficient whenever
the time resolution is positive. -/
def stepFuel (ts tr : ℚ) : ℕ := ts.num.toNat * tr.den + 1

/-- The `time_res` shrink performed by `PlumbingEngine.step` when the
requested timestep is below the current time resolution. -/
def Engine.shrinkTimeRes (e : Engine) (timestep : ℚ) : Engine :=
  if timestep < e.timeRes then { e with timeRes := timestep } else e

/-- `PlumbingEngine.step(timestep)`: refuse empty and invalid engines,
refuse a timestep below `MIN_TIME_RES_MICROS`, shrink `time_res` to the
timestep if the timestep is smaller, refuse a non-integer timestep
(after the shrink, as in the source), then run the integration loop up
to `time + timestep`. -/
def Engine.step (e : Engine) (timestep : ℚ) : StepResult :=
  if e.nodes = [] then .err .emptyEngine e
  else if e.errors ≠ [] then .err .invalidEngine e
  else if timestep < MIN_TIME_RES_MICROS then .err .tsTooLow e
  else if timestep.den ≠ 1 then .err .tsNotInt (e.shrinkTimeRes timestep)
  else (e.shrinkTimeRes timestep).stepLoop
    (stepFuel timestep (e.shrinkTimeRes timestep).timeRes)
    ((e.shrinkTimeRes timestep).time + timestep) []

/-- `PlumbingEngine.step()` with the timestep defaulted to the current
time resolution. -/
def Engine.stepDefault (e : Engine) : StepResult := e.step e.timeRes

/-- The per-node pressure delta as the specification writes it: the sum
of `FC ⬝ (p_m − p)` over in-edges with `p < p_m` minus the sum of
`FC ⬝ (p − p_m)` over out-edges with `p > p_m`. -/
def Engine.dpSpec (e : Engine) (n : String) : ℚ :=
  ((e.edges.filter (fun ed => ed.dst = n ∧ e.pressureOf n < e.pressureOf ed.src)).map
      (fun ed => ed.fc * (e.pressureOf ed.src - e.pressureOf n))).sum -
  ((e.edges.filter (fun ed => ed.src = n ∧ e.pressureOf ed.dst < e.pressureOf n)).map
      (fun ed => ed.fc * (e.pressureOf n - e.pressureOf ed.dst))).sum

/-- Python `int()` applied to a rational: truncation toward zero. -/
def pyInt (q : ℚ) : ℤ :=
  if 0 ≤ q then ⌊q⌋ else -⌊-q⌋

/-- Python's substring test `needle in hay`. -/
def strContains (hay needle : String) : Bool :=
  (List.range (hay.toList.length + 1)).any
    (fun i => ((hay.toList.drop i).take needle.toList.length) = needle.toList)

/-- Python's `hay.startswith(pre)`. -/
def strStarts (pre hay : String) : Bool :=
  hay.toList.take pre.toList.length = pre.toList

/-- One candidate of `_set_time_res`'s scan: take the flow coefficient
when it is not `FC_MAX` and beats the current maximum. -/
def maxFcStep (m : ℚ) (p : CompEdge × ℚ) : ℚ :=
  if p.2 ≠ FC_MAX ∧ m < p.2 then p.2 else m

/-- `_set_time_res`'s scan over one state's edge map. -/
def maxFcState (m : ℚ) (st : String × List (CompEdge × ℚ)) : ℚ :=
  st.2.foldl maxFcStep m

/-- `PlumbingEngine._set_time_res`: scan all states of one component for
the largest flow coefficient that is not `FC_MAX`, seeded with the
coefficient corresponding to the current `time_res`, and derive the new
(never larger) time resolution from it. -/
def Engine.setTimeRes (e : Engine) (componentName : String) : Engine :=
  match lookupAssoc e.componentDict componentName with
  | none => e
  | some comp =>
      let maxFc := comp.states.foldl maxFcState
        (teq_to_FC (e.timeRes * DEFAULT_RESOLUTION_SCALE))
      if maxFc ≠ 0 then
        { e with timeRes := (pyInt (FC_to_teq maxFc / DEFAULT_RESOLUTION_SCALE) : ℚ) }
      else e

/-- Append a node to the graph if absent (networkx `add_edge` creates
missing endpoints). -/
def addNodeIfAbsent (nodes : List String) (n : String) : List String :=
  if n ∈ nodes then nodes else nodes ++ [n]

/-- One graph-edge insertion of `add_component`: `add_edge(u, v, key)`
followed by on-demand instantiation of node bodies. -/
def Engine.addEdge (e : Engine) (u v k : String) : Engine :=
  let nodes1 := addNodeIfAbsent (addNodeIfAbsent e.nodes u) v
  let edges1 := if e.edges.any (fun ed => ed.src = u ∧ ed.dst = v ∧ ed.key = k)
                then e.edges else e.edges ++ [GraphEdge.mk u v k 0]
  let body1 := if (lookupAssoc e.body u).isSome then e.body else updateAssoc e.body u (0, false)
  let body2 := if (lookupAssoc body1 v).isSome then body1 else updateAssoc body1 v (0, false)
  { e with nodes := nodes1, edges := edges1, body := body2 }

/-- One iteration of `set_component_state`'s translation loop: record
`InvalidComponentNode` for unmapped endpoints, and extend the
graph-edge-to-`FC` dict when both endpoints are mapped. -/
def sceStep (compRealName componentName : String) (cmap : List (String × String))
    (acc : Engine × List ((String × String × String) × ℚ)) (pr : CompEdge × ℚ) :
    Engine × List ((String × String × String) × ℚ) :=
  let okStart := (lookupAssoc cmap pr.1.src).isSome
  let e2 := if okStart then acc.1 else
    { acc.1 with errors := addError (.invalidComponentNode compRealName pr.1.src) acc.1.errors }
  let okEnd := (lookupAssoc cmap pr.1.dst).isSome
  let e3 := if okEnd then e2 else
    { e2 with errors := addError (.invalidComponentNode compRealName pr.1.dst) e2.errors }
  if okStart ∧ okEnd then
    (e3, updateAssoc acc.2
      ((lookupAssoc cmap pr.1.src).getD "", (lookupAssoc cmap pr.1.dst).getD "",
        componentName ++ "." ++ pr.1.key) pr.2)
  else (e3, acc.2)

/-- `PlumbingEngine.set_component_state`: look up the target state,
record the new current state, translate component-local edges through
the mapping (missing node mappings are recorded as
`InvalidComponentNode` and skipped), and bulk-update the `FC`
attributes of the corresponding graph edges. -/
def Engine.setComponentState (e : Engine) (componentName stateId : String) :
    Except (PlumbErr × Engine) Engine :=
  if (lookupAssoc e.mapping componentName).isNone then
    .error (.componentNotInMapping componentName, e)
  else
    match lookupAssoc e.componentDict componentName with
    | none => .error (.componentNotFound componentName, e)
    | some comp =>
        if (lookupAssoc comp.states stateId).isNone then
          .error (.stateNotFound stateId, e)
        else
          let cmap := (lookupAssoc e.mapping componentName).getD []
          let stateEdges := (lookupAssoc comp.states stateId).getD []
          let comp' := { comp with currentState := stateId }
          let e1 := { e with componentDict := updateAssoc e.componentDict componentName comp' }
          let acc := stateEdges.foldl (sceStep comp.name componentName cmap) (e1, [])
          .ok { acc.1 with edges := acc.1.edges.map (fun ed =>
            match lookupAssoc acc.2 (ed.src, ed.dst, ed.key) with
            | some fc => { ed with fc := fc }
            | none => ed) }

/-- The edge-insertion loop of `add_component`: unmapped endpoints are
accumulated as `InvalidComponentNode` in fail-silently mode and raised
as `BadInputError` otherwise; edges with both endpoints mapped are
inserted. -/
def Engine.addEdgesLoop (name : String) (mapping : List (String × String))
    (failSilently : Bool) :
    Engine → List CompEdge → Except (PlumbErr × Engine) Engine
  | e, [] => .ok e
  | e, ce :: rest =>
      match (lookupAssoc mapping ce.src).isSome, (lookupAssoc mapping ce.dst).isSome,
          failSilently with
      | false, _, false => .error (.compNodeNotInMapping name ce.src, e)
      | true, false, false => .error (.compNodeNotInMapping name ce.dst, e)
      | true, true, _ =>
          Engine.addEdgesLoop name mapping failSilently
            (e.addEdge ((lookupAssoc mapping ce.src).getD "")
              ((lookupAssoc mapping ce.dst).getD "") (name ++ "." ++ ce.key)) rest
      | false, true, true =>
          Engine.addEdgesLoop name mapping failSilently
            { e with errors := addError (.invalidComponentNode name ce.src) e.errors } rest
      | false, false, true =>
          Engine.addEdgesLoop name mapping failSilently
            { e with errors := (addError (.invalidComponentNode name ce.dst)
                (addError (.invalidComponentNode name ce.src) e.errors)) } rest
      | true, false, true =>
          Engine.addEdgesLoop name mapping failSilently
            { e with errors := addError (.invalidComponentNode name ce.dst) e.errors } rest

/-- The pressure-assignment loop of `add_component`: `set_pressure`
failures are re-raised, except in fail-silently mode where every
failure other than "node not found in graph" is accumulated as
`InvalidNodePressure`. -/
def Engine.applyPressures (failSilently : Bool) :
    Engine → List (String × (ℚ × Bool)) → Except (PlumbErr × Engine) Engine
  | e, [] => .ok e
  | e, (node, pv) :: rest =>
      match e.setPressure node pv.1 pv.2 with
      | .ok e' => Engine.applyPressures failSilently e' rest
      | .error er =>
          if failSilently then
            if er = .nodeNotFound node then .error (er, e)
            else
              Engine.applyPressures failSilently
                { e with errors := addError (.invalidNodePressure node) e.errors } rest
          else .error (er, e)

/-- `PlumbingEngine.add_component`: register the component and its
sub-mapping, recompute the adaptive time resolution, insert the mapped
edges, apply the initial state, then assign the provided node
pressures. -/
def Engine.addComponent (e : Engine) (comp : PlumbingComponent)
    (mapping : List (String × String)) (stateId : String)
    (pressures : List (String × (ℚ × Bool))) (failSilently : Bool) :
    Except (PlumbErr × Engine) Engine :=
  if ¬ failSilently ∧ ¬ comp.valid then .error (.componentInvalid, e)
  else
    let name := comp.name
    let e1 := { e with componentDict := updateAssoc e.componentDict name comp,
                       mapping := updateAssoc e.mapping name mapping }
    let e2 := e1.setTimeRes name
    match Engine.addEdgesLoop name mapping failSilently e2 comp.edges with
    | .error pr => .error pr
    | .ok e3 =>
        match e3.setComponentState name stateId with
        | .error pr => .error pr
        | .ok e4 => Engine.applyPressures failSilently e4 pressures

/-- The per-component loop of `load_graph`: record
`InvalidComponentName` for invalid components and for names missing
from the mapping or the initial states (skipping the latter two), then
add the component in fail-silently mode with only the pressure entries
whose node is a target of this component's mapping. -/
def Engine.loadLoop (initialPressures : List (String × (ℚ × Bool)))
    (initialStates : List (String × String)) :
    Engine → List (String × PlumbingComponent) → Except (PlumbErr × Engine) Engine
  | e, [] => .ok e
  | e, (name, comp) :: rest =>
      let e1 := if comp.valid then e
        else { e with errors := addError (.invalidComponentName name) e.errors }
      let mappingOk := (lookupAssoc e1.mapping name).isSome
      let e2 := if mappingOk then e1
        else { e1 with errors := addError (.invalidComponentName name) e1.errors }
      let statesOk := (lookupAssoc initialStates name).isSome
      let e3 := if statesOk then e2
        else { e2 with errors := addError (.invalidComponentName name) e2.errors }
      if ¬ (mappingOk ∧ statesOk) then
        Engine.loadLoop initialPressures initialStates e3 rest
      else
        let submap := (lookupAssoc e3.mapping name).getD []
        let nodePressures := initialPressures.filter
          (fun pr => pr.1 ∈ submap.map Prod.snd)
        match e3.addComponent comp submap ((lookupAssoc initialStates name).getD "")
            nodePressures true with
        | .error pr => .error pr
        | .ok e4 => Engine.loadLoop initialPressures initialStates e4 rest

/-- The final check of `load_graph`: any `initial_pressures` node
absent from the constructed graph raises `BadInputError`. -/
def Engine.checkPressureNodes :
    Engine → List (String × (ℚ × Bool)) → Except (PlumbErr × Engine) Engine
  | e, [] => .ok e
  | e, (node, _) :: rest =>
      if node ∈ e.nodes then Engine.checkPressureNodes e rest
      else .error (.nodeNotFound node, e)

/-- `PlumbingEngine.load_graph`: deep-copy the inputs, clear the graph
and the error set, run the per-component loop, then raise on any
pressure entry whose node never made it into the graph. -/
def Engine.loadGraph (e : Engine) (components : List (String × PlumbingComponent))
    (mapping : List (String × List (String × String)))
    (initialPressures : List (String × (ℚ × Bool)))
    (initialStates : List (String × String)) : Except (PlumbErr × Engine) Engine :=
  let e0 := { e with componentDict := components, mapping := mapping,
                     nodes := [], edges := [], body := [], errors := [] }
  match Engine.loadLoop initialPressures initialStates e0 components with
  | .error pr => .error pr
  | .ok e1 => Engine.checkPressureNodes e1 initialPressures

/-- `PlumbingEngine.__init__` on a fresh engine. -/
def mkEngine (components : List (String × PlumbingComponent))
    (mapping : List (String × List (String × String)))
    (initialPressures : List (String × (ℚ × Bool)))
    (initialStates : List (String × String)) : Except (PlumbErr × Engine) Engine :=
  Engine.loadGraph
    { nodes := [], edges := [], body := [], fixedPressures := [], componentDict := [],
      mapping := [], timeRes := DEFAULT_TIME_RESOLUTION_MICROS, time := 0, errors := [] }
    components mapping initialPressures initialStates

/-- The inner edge loop of `set_teq` for one state: convert the given
`teq` (seconds) to microseconds, reject values below `TEQ_MIN`, reject
unknown edges, and write the converted flow coefficient into the
component's state map (mutations before a raise are retained). -/
def Engine.setTeqEdges (componentName stateId : String) :
    Engine → List (CompEdge × ℚ) → Except (PlumbErr × Engine) Engine
  | e, [] => .ok e
  | e, (edge, teqSeconds) :: rest =>
      if s_to_micros teqSeconds < TEQ_MIN then .error (.teqTooLow, e)
      else
        match lookupAssoc e.componentDict componentName with
        | none => .error (.componentNotFound componentName, e)
        | some comp =>
            match lookupAssoc comp.states stateId with
            | none => .error (.stateNotFound stateId, e)
            | some stEdges =>
                if (lookupAssoc stEdges edge).isNone then .error (.edgeNotFound, e)
                else
                  let stEdges' := updateAssoc stEdges edge (teq_to_FC (s_to_micros teqSeconds))
                  let comp' := { comp with states := updateAssoc comp.states stateId stEdges' }
                  Engine.setTeqEdges componentName stateId
                    { e with componentDict := updateAssoc e.componentDict componentName comp' }
                    rest

/-- The outer state loop of `set_teq`. -/
def Engine.setTeqStates (componentName : String) :
    Engine → List (String × List (CompEdge × ℚ)) → Except (PlumbErr × Engine) Engine
  | e, [] => .ok e
  | e, (stateId, edgeDict) :: rest =>
      match lookupAssoc e.componentDict componentName with
      | none => .error (.componentNotFound componentName, e)
      | some comp =>
          if (lookupAssoc comp.states stateId).isNone then .error (.stateNotFound stateId, e)
          else
            match Engine.setTeqEdges componentName stateId e edgeDict with
            | .error pr => .error pr
            | .ok e' => Engine.setTeqStates componentName e' rest

/-- `PlumbingEngine.set_teq`: mutate the component's per-state `FC`
maps, refresh the graph if the current state was touched, and recompute
the time resolution. -/
def Engine.setTeq (e : Engine) (componentName : String)
    (whichEdge : List (String × List (CompEdge × ℚ))) : Except (PlumbErr × Engine) Engine :=
  if (lookupAssoc e.componentDict componentName).isNone then
    .error (.componentNotFound componentName, e)
  else
    match Engine.setTeqStates componentName e whichEdge with
    | .error pr => .error pr
    | .ok e1 =>
        let cur := (((lookupAssoc e1.componentDict componentName).map
          PlumbingComponent.currentState).getD "")
        match (if (lookupAssoc whichEdge cur).isSome
            then e1.setComponentState componentName cur else .ok e1) with
        | .error pr => .error pr
        | .ok e2 => .ok (e2.setTimeRes componentName)

/-- The removal test of `PlumbingEngine._resolve_errors`: an error is
dropped when it is keyed on the removed component or references a node
that left the graph. -/
def errRemovable (nodes : List String) (c : String) : EngError → Bool
  | .invalidComponentName cn => cn = c
  | .invalidComponentNode cn nn => cn = c ∨ nn ∉ nodes
  | .invalidNodePressure nn => nn ∉ nodes
  | .dup _ => false

/-- The cascade of `_resolve_errors`: a duplicate wrapper is dropped when
its original is being dropped. -/
def errDupRemovable (toRemove : List EngError) : EngError → Bool
  | .dup o => o ∈ toRemove
  | _ => false

/-- `PlumbingEngine._resolve_errors` after a component removal: drop
every removable error and every duplicate wrapper whose original was
dropped. -/
def resolveErrors (g : Engine) (c : String) : Engine :=
  let toRemove := g.errors.filter (errRemovable g.nodes c)
  let toRemove2 := toRemove ++ g.errors.filter (errDupRemovable toRemove)
  { g with errors := g.errors.filter (fun er => er ∉ toRemove2) }

/-- `PlumbingEngine.remove_component`: drop every edge whose key
contains the component's name as a substring (the source tests
`component_name in edge[2]`), drop every node left without successors
(`neighbors` lists successors only) together with its remaining
incident edges and its body, resolve errors, unregister the component,
and recompute the time resolution from scratch. -/
def Engine.removeComponent (e : Engine) (inputName : String) :
    Except PlumbErr Engine :=
  match lookupAssoc e.componentDict inputName with
  | none => .error (.componentNotFound inputName)
  | some comp =>
      let cname := comp.name
      let edges1 := e.edges.filter (fun ed => ¬ strContains ed.key cname)
      let keptNodes := e.nodes.filter (fun nd => edges1.any (fun ed => ed.src = nd))
      let edges2 := edges1.filter (fun ed => ed.src ∈ keptNodes ∧ ed.dst ∈ keptNodes)
      let body2 := e.body.filter (fun kv => kv.1 ∈ keptNodes)
      let e1 := { e with edges := edges2, nodes := keptNodes, body := body2 }
      let e2 := resolveErrors e1 inputName
      let e3 := { e2 with
        mapping := if (lookupAssoc e2.mapping cname).isSome
          then e2.mapping.filter (fun kv => kv.1 ≠ cname) else e2.mapping,
        componentDict := e2.componentDict.filter (fun kv => kv.1 ≠ inputName),
        timeRes := DEFAULT_TIME_RESOLUTION_MICROS }
      .ok ((e3.componentDict.map Prod.fst).foldl Engine.setTimeRes e3)

/-- Result of a variadic query accessor: a scalar, a mapping, or a
raised `BadInputError`. -/
inductive QueryOut (κ α : Type) where
  | scalar (a : α)
  | mapOut (m : List (κ × α))
  | raised (er : PlumbErr)
  deriving DecidableEq, Repr

/-- An argument of `current_FC` after flattening: a component name
(string) or an edge identifier (tuple). -/
inductive FCArg where
  | comp (c : String)
  | edge (k : String × String × String)
  deriving DecidableEq, Repr

/-- The dict-building path of `current_state` (two or more
identifiers): a missing component raises at its position. -/
def Engine.currentStateMany (e : Engine) :
    List String → List (String × String) → QueryOut String String
  | [], acc => .mapOut acc
  | a :: rest, acc =>
      match lookupAssoc e.componentDict a with
      | some comp => e.currentStateMany rest (updateAssoc acc a comp.currentState)
      | none => .raised (.componentNotFound a)

/-- `PlumbingEngine.current_state` on the flattened argument list: no
arguments map every component, exactly one known identifier yields a
scalar, anything else yields a dict. -/
def Engine.currentState (e : Engine) (args : List String) : QueryOut String String :=
  match args with
  | [] => .mapOut (e.componentDict.map (fun p => (p.2.name, p.2.currentState)))
  | [a] =>
      match lookupAssoc e.componentDict a with
      | some comp => .scalar comp.currentState
      | none => .raised (.componentNotFound a)
  | _ => e.currentStateMany args []

/-- The dict-building path of `current_pressures`. -/
def Engine.currentPressuresMany (e : Engine) :
    List String → List (String × ℚ) → QueryOut String ℚ
  | [], acc => .mapOut acc
  | a :: rest, acc =>
      if (lookupAssoc e.body a).isSome then
        e.currentPressuresMany rest (updateAssoc acc a (e.pressureOf a))
      else .raised (.nodeNotFound a)

/-- `PlumbingEngine.current_pressures` on the flattened argument
list. -/
def Engine.currentPressures (e : Engine) (args : List String) : QueryOut String ℚ :=
  match args with
  | [] => .mapOut (e.nodes.map (fun nd => (nd, e.pressureOf nd)))
  | [a] =>
      if (lookupAssoc e.body a).isSome then .scalar (e.pressureOf a)
      else .raised (.nodeNotFound a)
  | _ => e.currentPressuresMany args []

/-- The dict-building path of `current_FC`: a component name collects
every edge whose key starts with `"<name>."`; an edge identifier adds a
single entry; anything else raises. -/
def Engine.currentFCMany (e : Engine) :
    List FCArg → List ((String × String × String) × ℚ) →
      QueryOut (String × String × String) ℚ
  | [], acc => .mapOut acc
  | .comp c :: rest, acc =>
      if (lookupAssoc e.componentDict c).isSome then
        e.currentFCMany rest
          ((e.edges.filter (fun ed => strStarts (c ++ ".") ed.key)).foldl
            (fun a ed => updateAssoc a (ed.src, ed.dst, ed.key) ed.fc) acc)
      else .raised .edgeNotFound
  | .edge k :: rest, acc =>
      match e.edges.find? (fun ed => (ed.src, ed.dst, ed.key) = k) with
      | some ed => e.currentFCMany rest (updateAssoc acc k ed.fc)
      | none => .raised .edgeNotFound

/-- `PlumbingEngine.current_FC` on the flattened argument list: a
single existing edge identifier yields a scalar; everything else,
including a single component name, yields a dict (or raises). -/
def Engine.currentFC (e : Engine) (args : List FCArg) :
    QueryOut (String × String × String) ℚ :=
  match args with
  | [] => .mapOut (e.edges.map (fun ed => ((ed.src, ed.dst, ed.key), ed.fc)))
  | [.edge k] =>
      match e.edges.find? (fun ed => (ed.src, ed.dst, ed.key) = k) with
      | some ed => .scalar ed.fc
      | none => e.currentFCMany [.edge k] []
  | _ => e.currentFCMany args []

/-- Comparison operators of ProcLang predicates. -/
inductive CompOp where
  | lt
  | gt
  | le
  | ge
  | eq
  deriving DecidableEq, Repr

/-- ProcLang predicates: leaves are comparisons or `WaitFor`; inner
nodes are `And` / `Or`; `Immediate` is the always-true entry guard. -/
inductive ProcCondition where
  | immediate
  | waitFor (micros : ℚ)
  | comparison (node : String) (op : CompOp) (value : ℚ)
  | andC (cs : List ProcCondition)
  | orC (cs : List ProcCondition)

/-- A ProcLang transition target `(procedure, step)`. -/
structure ProcTransition where
  procedure : String
  step : String
  deriving DecidableEq, Repr

/-- A ProcLang action. -/
inductive ProcAction where
  | stateChange (component state : String)
  | misc (text : String)
  deriving DecidableEq, Repr

/-- `topside.ProcedureStep(step_id, action, conditions_out, personnel)`. -/
structure ProcedureStep where
  stepId : String
  action : ProcAction
  conditionsOut : List (ProcCondition × ProcTransition)
  personnel : String

/-- `topside.Procedure(name, steps)`. -/
structure ProcProcedure where
  name : String
  steps : List ProcedureStep

/-- The intermediate `step_info` dict built by
`ProcedureTransformer.step`. -/
structure StepInfo where
  id : String
  personnel : String
  conditionIn : ProcCondition
  action : ProcAction
  conditionsOut : List (ProcCondition × ProcTransition)

/-- `ProcedureTransformer.step`: a step with no attached entry condition
gets `Immediate` as `condition_in`; the step's deviations become its
initial `conditions_out` in source order. -/
def stepInfoOf (id personnel : String) (entry : Option ProcCondition) (action : ProcAction)
    (deviations : List (ProcCondition × ProcTransition)) : StepInfo :=
  { id := id, personnel := personnel,
    conditionIn := entry.getD .immediate,
    action := action,
    conditionsOut := deviations }

/-- The reverse-order loop of `ProcedureTransformer.procedure`: walk the
steps backwards keeping the most recently processed step as successor,
append the natural-successor transition (guarded by the successor's
entry condition) after the deviations, and prepend the built step. -/
def procedureRevLoop (name : String) :
    List StepInfo → Option StepInfo → List ProcedureStep → List ProcedureStep
  | [], _, acc => acc
  | info :: rest, succInfo, acc =>
      let conds := info.conditionsOut ++
        (match succInfo with
         | some s => [(s.conditionIn, ProcTransition.mk name s.id)]
         | none => [])
      procedureRevLoop name rest (some info)
        (ProcedureStep.mk info.id info.action conds info.personnel :: acc)

/-- `ProcedureTransformer.procedure`: build the steps by the reversed
loop, starting with no successor. -/
def procedureOf (name : String) (infos : List StepInfo) : ProcProcedure :=
  ⟨name, procedureRevLoop name infos.reverse none []⟩

/-- The step a step record turns into, given its successor: the
deviations in source order, then the natural-successor transition when
a successor exists. -/
def mkProcStep (name : String) (a : StepInfo) (succ : Option StepInfo) : ProcedureStep :=
  ProcedureStep.mk a.id a.action
    (a.conditionsOut ++ (match succ with
      | some s => [(s.conditionIn, ProcTransition.mk name s.id)]
      | none => [])) a.personnel

/-- Forward description of the transition structure `procedure`
produces: every step carries its deviations followed by the transition
to its successor, the last step taking `succ0` as successor. -/
def buildSteps (name : String) (succ0 : Option StepInfo) : List StepInfo → List ProcedureStep
  | [] => []
  | [a] => [mkProcStep name a succ0]
  | a :: b :: rest => mkProcStep name a (some b) :: buildSteps name succ0 (b :: rest)

/-- Whether a `StepResult` is a normal return. -/
def StepResult.isOk : StepResult → Bool
  | .ok _ => true
  | _ => false

/-- A valid two-node engine on which `step` aborts with a negative
computed pressure: the Euler update of node `B` overshoots below zero
in the second sub-step. -/
def egA : Engine :=
  { nodes := ["A", "B"],
    edges := [⟨"A", "B", "v.f", 3/40000⟩, ⟨"B", "A", "v.b", 1/5000⟩],
    body := [("A", (100, false)), ("B", (0, false))],
    fixedPressures := [], componentDict := [], mapping := [],
    timeRes := 10000, time := 0, errors := [] }

/-- A valid two-node engine on which `step` runs to completion (equal
flow coefficients, mild diffusion). -/
def egB : Engine :=
  { nodes := ["A", "B"],
    edges := [⟨"A", "B", "v.f", 1/40000⟩, ⟨"B", "A", "v.b", 1/40000⟩],
    body := [("A", (100, false)), ("B", (0, false))],
    fixedPressures := [], componentDict := [], mapping := [],
    timeRes := 10000, time := 0, errors := [] }

/-- A valid engine with a fixed node `F` and the atmospheric node. -/
def egC : Engine :=
  { nodes := ["atm", "F", "X"],
    edges := [⟨"F", "X", "w.f", 1/20000⟩, ⟨"X", "F", "w.b", 1/20000⟩,
              ⟨"atm", "X", "u.f", 1/20000⟩, ⟨"X", "atm", "u.b", 1/20000⟩],
    body := [("atm", (0, false)), ("F", (500, true)), ("X", (100, false))],
    fixedPressures := [("F", 500)], componentDict := [], mapping := [],
    timeRes := 10000, time := 0, errors := [] }

/-- The engine state `egC` after one committed sub-step of length
`10000`: only the free node `X` moves. -/
def egCafter : Engine :=
  { egC with body := [("atm", (0, false)), ("F", (500, true)), ("X", (250, false))] }

/-- The state of `egA` as the integration loop sees it at the start of
its second sub-step. -/
def egAmid : Engine :=
  { egA with body := [("A", (25, false)), ("B", (75, false))], time := 10000 }

/-- `egAmid` after the partial commit of its failing sub-step: `A` has
been committed, `B` aborted the commit. -/
def egAbad : Engine :=
  { egA with body := [("A", (125, false)), ("B", (75, false))], time := 10000 }

/-- A two-step ProcLang procedure: step 1 has no entry condition and no
deviations; step 2 carries a `WaitFor` entry condition. -/
def si1 : StepInfo := stepInfoOf "1" "ops" none (.misc "open vent") []

/-- Second step of the two-step example, entered after one second. -/
def si2 : StepInfo := stepInfoOf "2" "ops" (some (.waitFor 1000000)) (.misc "close vent") []

/-- The engine state carried by an operation's outcome: the final state
on a normal return, the state at the moment of the raise otherwise. -/
def exceptState : Except (PlumbErr × Engine) Engine → Engine
  | .ok e => e
  | .error pr => pr.2

/-- Modelled from the spec: every flow coefficient stored in a
component's states is non-negative and saturates at `FC_MAX` (the PDL
conversion clamps `teq` below the minimum to `FC_MAX`, and legal `teq ≥
TEQ_MIN` gives `FC = 1/teq ≤ FC_MAX`). -/
def compFCsOK (comp : PlumbingComponent) : Prop :=
  ∀ st ∈ comp.states, ∀ p ∈ st.2, 0 ≤ p.2 ∧ p.2 ≤ FC_MAX

/-- All components registered in the engine satisfy `compFCsOK`. -/
def Engine.compsOK (e : Engine) : Prop :=
  ∀ p ∈ e.componentDict, compFCsOK p.2

/-- A small valve component with a legal open state and a closed
state. -/
def compV : PlumbingComponent :=
  { name := "v",
    edges := [⟨"1", "2", "f"⟩, ⟨"2", "1", "b"⟩],
    states := [("open", [(⟨"1", "2", "f"⟩, 1/2000), (⟨"2", "1", "b"⟩, 1/2000)]),
               ("closed", [(⟨"1", "2", "f"⟩, 0), (⟨"2", "1", "b"⟩, 0)])],
    currentState := "open",
    valid := true }

/-- An engine holding `compV`, wired `1 ↦ A`, `2 ↦ B`. -/
def egD : Engine :=
  { nodes := ["A", "B"],
    edges := [⟨"A", "B", "v.f", 1/2000⟩, ⟨"B", "A", "v.b", 1/2000⟩],
    body := [("A", (0, false)), ("B", (100, false))],
    fixedPressures := [],
    componentDict := [("v", compV)],
    mapping := [("v", [("1", "A"), ("2", "B")])],
    timeRes := 10000, time := 0, errors := [] }

/-- Whether an error record carries `component_name = c`, looking
through duplicate wrappers. -/
def errNamesComp : EngError → String → Bool
  | .invalidComponentName cn, c => cn = c
  | .invalidComponentNode cn _, c => cn = c
  | .invalidNodePressure _, _ => false
  | .dup o, c => errNamesComp o c

/-- The node an error record references, looking through duplicate
wrappers. -/
def errNodeRef : EngError → Option String
  | .invalidComponentName _ => none
  | .invalidComponentNode _ nn => some nn
  | .invalidNodePressure nn => some nn
  | .dup o => errNodeRef o

/-- Well-formedness of an error set as `add_error` builds it: a
duplicate wrapper's original is itself in the set, and duplicates are
never nested. -/
def dupWF (es : List EngError) : Prop :=
  ∀ o, EngError.dup o ∈ es → o ∈ es ∧ (∀ o2, o ≠ EngError.dup o2)

/-- A two-edge component named `a`. -/
def compA : PlumbingComponent :=
  { name := "a",
    edges := [⟨"1", "2", "f"⟩, ⟨"2", "1", "b"⟩],
    states := [("open", [(⟨"1", "2", "f"⟩, 0), (⟨"2", "1", "b"⟩, 0)])],
    currentState := "open", valid := true }

/-- A two-edge component named `ab`: its name contains `a` as a
substring. -/
def compAB : PlumbingComponent :=
  { name := "ab",
    edges := [⟨"1", "2", "f"⟩, ⟨"2", "1", "b"⟩],
    states := [("open", [(⟨"1", "2", "f"⟩, 0), (⟨"2", "1", "b"⟩, 0)])],
    currentState := "open", valid := true }

/-- An engine holding both `a` (on `X–Y`) and `ab` (on `Y–Z`). -/
def egE : Engine :=
  { nodes := ["X", "Y", "Z"],
    edges := [⟨"X", "Y", "a.f", 0⟩, ⟨"Y", "X", "a.b", 0⟩,
              ⟨"Y", "Z", "ab.f", 0⟩, ⟨"Z", "Y", "ab.b", 0⟩],
    body := [("X", (0, false)), ("Y", (0, false)), ("Z", (0, false))],
    fixedPressures := [],
    componentDict := [("a", compA), ("ab", compAB)],
    mapping := [("a", [("1", "X"), ("2", "Y")]), ("ab", [("1", "Y"), ("2", "Z")])],
    timeRes := 10000, time := 0, errors := [] }

/-- The engine left after `egE.removeComponent "a"`: the substring
match also drops both `ab.*` edges, so every node loses its successors
and the whole graph empties. -/
def egEafter : Engine :=
  { nodes := [], edges := [], body := [], fixedPressures := [],
    componentDict := [("ab", compAB)],
    mapping := [("ab", [("1", "Y"), ("2", "Z")])],
    timeRes := 10000, time := 0, errors := [] }

/-- The engine left after `egD.removeComponent "v"`. -/
def egDremoved : Engine :=
  { nodes := [], edges := [], body := [], fixedPressures := [],
    componentDict := [], mapping := [],
    timeRes := 10000, time := 0, errors := [] }

/-- A component whose second node `n2` will be left out of the engine
mapping. -/
def compN1 : PlumbingComponent :=
  { name := "c1", edges := [⟨"n1", "n2", "f"⟩],
    states := [("open", [(⟨"n1", "n2", "f"⟩, 0)])],
    currentState := "open", valid := true }

/-- A fully mapped one-edge component. -/
def compN2 : PlumbingComponent :=
  { name := "c2", edges := [⟨"1", "2", "f"⟩],
    states := [("open", [(⟨"1", "2", "f"⟩, 0)])],
    currentState := "open", valid := true }

/-- Mapping for the `load_graph` run: `c1`'s node `n2` is unmapped, and
`c2` maps into node `A`. -/
def egLmapping : List (String × List (String × String)) :=
  [("c1", [("n1", "A")]), ("c2", [("1", "A"), ("2", "B")])]

def egLpressures : List (String × (ℚ × Bool)) := [("A", (100, false))]

def egLstates : List (String × String) := [("c1", "open"), ("c2", "open")]

/-- The mid-loop state at which the two-component `load_graph` run
raises: `c1` has been processed (accumulating its unmapped-node errors)
but `c2` has not, so node `A` does not exist yet. -/
def egLmid : Engine :=
  { nodes := [], edges := [], body := [], fixedPressures := [],
    componentDict := [("c1", compN1), ("c2", compN2)],
    mapping := egLmapping, timeRes := 10000, time := 0,
    errors := [.invalidComponentNode "c1" "n2",
               .dup (.invalidComponentNode "c1" "n2")] }

/-- The engine built by loading `c2` alone: node `A` is introduced and
receives its initial pressure. -/
def egLok : Engine :=
  { nodes := ["A", "B"],
    edges := [⟨"A", "B", "c2.f", 0⟩],
    body := [("A", (100, false)), ("B", (0, false))],
    fixedPressures := [],
    componentDict := [("c2", compN2)],
    mapping := [("c2", [("1", "A"), ("2", "B")])],
    timeRes := 10000, time := 0, errors := [] }

/-! ### Basic association-list lemmas -/

theorem lookupAssoc_updateAssoc_self {β : Type} (l : List (String × β)) (k : String) (v : β) :
    lookupAssoc (updateAssoc l k v) k = some v := by
  induction l with
  | nil => simp [updateAssoc, lookupAssoc]
  | cons hd tl ih =>
      by_cases h : hd.1 = k
      · simp [updateAssoc, h, lookupAssoc]
      · simp [updateAssoc, h, lookupAssoc, ih]

theorem lookupAssoc_updateAssoc_ne {β : Type} (l : List (String × β)) (k m : String) (v : β)
    (h : m ≠ k) : lookupAssoc (updateAssoc l k v) m = lookupAssoc l m := by
  induction l with
  | nil => simp [updateAssoc, lookupAssoc, Ne.symm h]
  | cons hd tl ih =>
      by_cases h1 : hd.1 = k
      · subst h1
        simp [updateAssoc, lookupAssoc, Ne.symm h]
      · simp only [updateAssoc, if_neg h1, lookupAssoc]
        by_cases h2 : hd.1 = m
        · simp [h2]
        · simp [h2, ih]

theorem updateAssoc_keys_mem {β : Type} (l : List (String × β)) (k m : String) (v : β) :
    m ∈ (updateAssoc l k v).map Prod.fst ↔ m = k ∨ m ∈ l.map Prod.fst := by
  induction l with
  | nil => simp [updateAssoc]
  | cons hd tl ih =>
      by_cases h : hd.1 = k
      · subst h
        simp [updateAssoc]
      · simp only [updateAssoc, if_neg h, List.map_cons, List.mem_cons, ih]
        tauto

theorem updateAssoc_keys_nodup {β : Type} (l : List (String × β)) (k : String) (v : β)
    (h : (l.map Prod.fst).Nodup) : ((updateAssoc l k v).map Prod.fst).Nodup := by
  induction l with
  | nil => simp [updateAssoc]
  | cons hd tl ih =>
      simp only [List.map_cons, List.nodup_cons] at h
      by_cases h1 : hd.1 = k
      · subst h1
        simpa [updateAssoc, List.nodup_cons] using h
      · simp only [updateAssoc, if_neg h1, List.map_cons, List.nodup_cons]
        refine ⟨?_, ih h.2⟩
        intro hmem
        rcases (updateAssoc_keys_mem tl k hd.1 v).mp hmem with h2 | h2
        · exact h1 h2
        · exact h.1 h2

theorem lookupAssoc_isSome_of_mem {β : Type} (l : List (String × β)) (k : String)
    (h : k ∈ l.map Prod.fst) : (lookupAssoc l k).isSome := by
  induction l with
  | nil => simp at h
  | cons hd tl ih =>
      by_cases h1 : hd.1 = k
      · simp [lookupAssoc, h1]
      · simp only [List.map_cons, List.mem_cons] at h
        rcases h with h | h
        · exact absurd h.symm h1
        · simpa [lookupAssoc, h1] using ih h

/-! ### `set_pressure` lemmas -/

theorem setPressure_frame (e e' : Engine) (n : String) (p : ℚ) (f : Bool)
    (h : e.setPressure n p f = .ok e') :
    e'.nodes = e.nodes ∧ e'.edges = e.edges ∧ e'.componentDict = e.componentDict ∧
      e'.mapping = e.mapping ∧ e'.timeRes = e.timeRes ∧ e'.time = e.time ∧
      e'.errors = e.errors := by
  unfold Engine.setPressure at h
  split at h
  · exact absurd h (by simp)
  · split at h
    · exact absurd h (by simp)
    · split at h
      · exact absurd h (by simp)
      · cases h
        exact ⟨rfl, rfl, rfl, rfl, rfl, rfl, rfl⟩

theorem setPressure_pressure_self (e e' : Engine) (n : String) (p : ℚ) (f : Bool)
    (h : e.setPressure n p f = .ok e') : e'.pressureOf n = p := by
  unfold Engine.setPressure at h
  split at h
  · exact absurd h (by simp)
  · split at h
    · exact absurd h (by simp)
    · split at h
      · exact absurd h (by simp)
      · cases h
        simp [Engine.pressureOf, lookupAssoc_updateAssoc_self]

theorem setPressure_pressure_other (e e' : Engine) (n m : String) (p : ℚ) (f : Bool)
    (h : e.setPressure n p f = .ok e') (hm : m ≠ n) : e'.pressureOf m = e.pressureOf m := by
  unfold Engine.setPressure at h
  split at h
  · exact absurd h (by simp)
  · split at h
    · exact absurd h (by simp)
    · split at h
      · exact absurd h (by simp)
      · cases h
        simp [Engine.pressureOf, lookupAssoc_updateAssoc_ne _ _ _ _ hm]

theorem setPressure_fixed_unchanged (e e' : Engine) (n : String) (p : ℚ)
    (h : e.setPressure n p false = .ok e') (hn : n ∉ e.fixedPressures.map Prod.fst) :
    e'.fixedPressures = e.fixedPressures := by
  unfold Engine.setPressure at h
  split at h
  · exact absurd h (by simp)
  · split at h
    · exact absurd h (by simp)
    · split at h
      · exact absurd h (by simp)
      · cases h
        simp only
        refine List.filter_eq_self.mpr ?_
        intro kv hkv
        have : kv.1 ∈ e.fixedPressures.map Prod.fst := List.mem_map_of_mem Prod.fst hkv
        simp only [decide_eq_true_eq]
        intro heq
        exact hn (heq ▸ this)

/-! ### `commit` lemmas -/

theorem commit_frame (l : List (String × ℚ)) : ∀ (e e' : Engine),
    e.commit l = .ok e' →
    e'.nodes = e.nodes ∧ e'.edges = e.edges ∧ e'.componentDict = e.componentDict ∧
      e'.mapping = e.mapping ∧ e'.timeRes = e.timeRes ∧ e'.time = e.time ∧
      e'.errors = e.errors := by
  induction l with
  | nil =>
      intro e e' h
      cases h
      exact ⟨rfl, rfl, rfl, rfl, rfl, rfl, rfl⟩
  | cons hd tl ih =>
      intro e e' h
      unfold Engine.commit at h
      cases hsp : e.setPressure hd.1 hd.2 false with
      | ok e1 =>
          rw [hsp] at h
          obtain ⟨h1, h2, h3, h4, h5, h6, h7⟩ := ih e1 e' h
          obtain ⟨g1, g2, g3, g4, g5, g6, g7⟩ := setPressure_frame e e1 hd.1 hd.2 false hsp
          exact ⟨h1.trans g1, h2.trans g2, h3.trans g3, h4.trans g4, h5.trans g5,
            h6.trans g6, h7.trans g7⟩
      | error er =>
          rw [hsp] at h
          exact absurd h (by simp)

theorem commit_err_frame (l : List (String × ℚ)) : ∀ (e ebad : Engine) (er : PlumbErr),
    e.commit l = .error (er, ebad) →
    ebad.nodes = e.nodes ∧ ebad.edges = e.edges ∧ ebad.componentDict = e.componentDict ∧
      ebad.mapping = e.mapping ∧ ebad.timeRes = e.timeRes ∧ ebad.time = e.time ∧
      ebad.errors = e.errors := by
  induction l with
  | nil =>
      intro e ebad er h
      exact absurd h (by simp [Engine.commit])
  | cons hd tl ih =>
      intro e ebad er h
      unfold Engine.commit at h
      cases hsp : e.setPressure hd.1 hd.2 false with
      | ok e1 =>
          rw [hsp] at h
          obtain ⟨h1, h2, h3, h4, h5, h6, h7⟩ := ih e1 ebad er h
          obtain ⟨g1, g2, g3, g4, g5, g6, g7⟩ := setPressure_frame e e1 hd.1 hd.2 false hsp
          exact ⟨h1.trans g1, h2.trans g2, h3.trans g3, h4.trans g4, h5.trans g5,
            h6.trans g6, h7.trans g7⟩
      | error er' =>
          rw [hsp] at h
          cases h
          exact ⟨rfl, rfl, rfl, rfl, rfl, rfl, rfl⟩

theorem commit_pressure_not_mem (l : List (String × ℚ)) : ∀ (e e' : Engine) (n : String),
    n ∉ l.map Prod.fst → e.commit l = .ok e' → e'.pressureOf n = e.pressureOf n := by
  induction l with
  | nil =>
      intro e e' n _ h
      cases h; rfl
  | cons hd tl ih =>
      intro e e' n hn h
      simp only [List.map_cons, List.mem_cons] at hn
      push_neg at hn
      unfold Engine.commit at h
      cases hsp : e.setPressure hd.1 hd.2 false with
      | ok e1 =>
          rw [hsp] at h
          rw [ih e1 e' n hn.2 h]
          exact setPressure_pressure_other e e1 hd.1 n hd.2 false hsp hn.1
      | error er =>
          rw [hsp] at h
          exact absurd h (by simp)

theorem commit_err_pressure_not_mem (l : List (String × ℚ)) :
    ∀ (e ebad : Engine) (er : PlumbErr) (n : String),
    n ∉ l.map Prod.fst → e.commit l = .error (er, ebad) →
    ebad.pressureOf n = e.pressureOf n := by
  induction l with
  | nil =>
      intro e ebad er n _ h
      exact absurd h (by simp [Engine.commit])
  | cons hd tl ih =>
      intro e ebad er n hn h
      simp only [List.map_cons, List.mem_cons] at hn
      push_neg at hn
      unfold Engine.commit at h
      cases hsp : e.setPressure hd.1 hd.2 false with
      | ok e1 =>
          rw [hsp] at h
          rw [ih e1 ebad er n hn.2 h]
          exact setPressure_pressure_other e e1 hd.1 n hd.2 false hsp hn.1
      | error er' =>
          rw [hsp] at h
          cases h
          rfl

theorem commit_fixed_unchanged (l : List (String × ℚ)) : ∀ (e e' : Engine),
    (∀ k ∈ l.map Prod.fst, k ∉ e.fixedPressures.map Prod.fst) →
    e.commit l = .ok e' → e'.fixedPressures = e.fixedPressures := by
  induction l with
  | nil =>
      intro e e' _ h
      cases h; rfl
  | cons hd tl ih =>
      intro e e' hk h
      unfold Engine.commit at h
      cases hsp : e.setPressure hd.1 hd.2 false with
      | ok e1 =>
          rw [hsp] at h
          have hfix : e1.fixedPressures = e.fixedPressures :=
            setPressure_fixed_unchanged e e1 hd.1 hd.2 hsp (hk hd.1 (by simp))
          rw [ih e1 e' (by intro k hmem; rw [hfix]; exact hk k (by simp [hmem])) h, hfix]
      | error er =>
          rw [hsp] at h
          exact absurd h (by simp)

theorem commit_err_fixed_unchanged (l : List (String × ℚ)) :
    ∀ (e ebad : Engine) (er : PlumbErr),
    (∀ k ∈ l.map Prod.fst, k ∉ e.fixedPressures.map Prod.fst) →
    e.commit l = .error (er, ebad) → ebad.fixedPressures = e.fixedPressures := by
  induction l with
  | nil =>
      intro e ebad er _ h
      exact absurd h (by simp [Engine.commit])
  | cons hd tl ih =>
      intro e ebad er hk h
      unfold Engine.commit at h
      cases hsp : e.setPressure hd.1 hd.2 false with
      | ok e1 =>
          rw [hsp] at h
          have hfix : e1.fixedPressures = e.fixedPressures :=
            setPressure_fixed_unchanged e e1 hd.1 hd.2 hsp (hk hd.1 (by simp))
          rw [ih e1 ebad er (by intro k hmem; rw [hfix]; exact hk k (by simp [hmem])) h, hfix]
      | error er' =>
          rw [hsp] at h
          cases h
          rfl

theorem commit_pressure_mem (l : List (String × ℚ)) : ∀ (e e' : Engine) (n : String) (p : ℚ),
    (l.map Prod.fst).Nodup → (n, p) ∈ l → e.commit l = .ok e' → e'.pressureOf n = p := by
  induction l with
  | nil =>
      intro e e' n p _ hmem _
      simp at hmem
  | cons hd tl ih =>
      intro e e' n p hnd hmem h
      simp only [List.map_cons, List.nodup_cons] at hnd
      unfold Engine.commit at h
      cases hsp : e.setPressure hd.1 hd.2 false with
      | ok e1 =>
          rw [hsp] at h
          rcases List.mem_cons.mp hmem with heq | hmem'
          · subst heq
            have hnot : n ∉ tl.map Prod.fst := hnd.1
            rw [commit_pressure_not_mem tl e1 e' n hnot h]
            exact setPressure_pressure_self e e1 n p false hsp
          · exact ih e1 e' n p hnd.2 hmem' h
      | error er =>
          rw [hsp] at h
          exact absurd h (by simp)

/-! ### `computeNew` lemmas -/

theorem computeFold_lookup_not_mem (e : Engine) (dt : ℚ) (n : String) :
    ∀ (l : List String) (np : List (String × ℚ)), n ∉ l →
    lookupAssoc (l.foldl (e.computeStepFn dt) np) n = lookupAssoc np n := by
  intro l
  induction l with
  | nil => intro np _; rfl
  | cons hd tl ih =>
      intro np hn
      simp only [List.mem_cons] at hn
      push_neg at hn
      simp only [List.foldl_cons]
      rw [ih _ hn.2]
      unfold Engine.computeStepFn
      split
      · rfl
      · exact lookupAssoc_updateAssoc_ne np hd n _ hn.1

theorem computeFold_lookup_mem (e : Engine) (dt : ℚ) (n : String) :
    ∀ (l : List String) (np : List (String × ℚ)), n ∈ l → l.Nodup →
    n ∉ e.fixedPressures.map Prod.fst → n ≠ ATM →
    lookupAssoc (l.foldl (e.computeStepFn dt) np) n =
      some (e.pressureOf n + e.dpOf n * dt) := by
  intro l
  induction l with
  | nil => intro np h; simp at h
  | cons hd tl ih =>
      intro np hmem hnd hnf hna
      simp only [List.nodup_cons] at hnd
      rcases List.mem_cons.mp hmem with heq | hmem'
      · subst heq
        simp only [List.foldl_cons]
        rw [computeFold_lookup_not_mem e dt n tl _ hnd.1]
        unfold Engine.computeStepFn
        rw [if_neg (by simp [hnf, hna])]
        exact lookupAssoc_updateAssoc_self np n _
      · simp only [List.foldl_cons]
        exact ih _ hmem' hnd.2 hnf hna

theorem computeFold_keys (e : Engine) (dt : ℚ) (k : String) :
    ∀ (l : List String) (np : List (String × ℚ)),
    k ∈ (l.foldl (e.computeStepFn dt) np).map Prod.fst →
    k ∈ np.map Prod.fst ∨ (k ∉ e.fixedPressures.map Prod.fst ∧ k ≠ ATM) := by
  intro l
  induction l with
  | nil => intro np h; exact Or.inl h
  | cons hd tl ih =>
      intro np h
      simp only [List.foldl_cons] at h
      rcases ih _ h with h1 | h1
      · unfold Engine.computeStepFn at h1
        split at h1
        · exact Or.inl h1
        · rcases (updateAssoc_keys_mem np hd k _).mp h1 with h2 | h2
          · subst h2
            rename_i hcond
            push_neg at hcond
            exact Or.inr ⟨hcond.1, hcond.2⟩
          · exact Or.inl h2
      · exact Or.inr h1

theorem computeFold_keys_nodup (e : Engine) (dt : ℚ) :
    ∀ (l : List String) (np : List (String × ℚ)), (np.map Prod.fst).Nodup →
    ((l.foldl (e.computeStepFn dt) np).map Prod.fst).Nodup := by
  intro l
  induction l with
  | nil => intro np h; exact h
  | cons hd tl ih =>
      intro np h
      simp only [List.foldl_cons]
      refine ih _ ?_
      unfold Engine.computeStepFn
      split
      · exact h
      · exact updateAssoc_keys_nodup np hd _ h

/-! ### `stepLoop` lemmas -/

theorem stepLoop_frame (fuel : ℕ) : ∀ (maxT : ℚ) (e : Engine) (np : List (String × ℚ)),
    (Engine.stepLoop fuel maxT e np).state.nodes = e.nodes ∧
    (Engine.stepLoop fuel maxT e np).state.edges = e.edges ∧
    (Engine.stepLoop fuel maxT e np).state.timeRes = e.timeRes ∧
    (Engine.stepLoop fuel maxT e np).state.errors = e.errors ∧
    (Engine.stepLoop fuel maxT e np).state.componentDict = e.componentDict ∧
    (Engine.stepLoop fuel maxT e np).state.mapping = e.mapping := by
  induction fuel with
  | zero =>
      intro maxT e np
      unfold Engine.stepLoop
      split <;> exact ⟨rfl, rfl, rfl, rfl, rfl, rfl⟩
  | succ fuel ih =>
      intro maxT e np
      unfold Engine.stepLoop
      by_cases hlt : e.time < maxT
      · rw [if_pos hlt]
        cases hc : e.commit (e.computeNew (e.substepDt maxT) np) with
        | ok e1 =>
            obtain ⟨g1, g2, g3, g4, g5, g6, _⟩ := commit_frame _ _ _ hc
            obtain ⟨h1, h2, h3, h4, h5, h6⟩ :=
              ih maxT { e1 with time := e1.time + e.substepDt maxT }
                (e.computeNew (e.substepDt maxT) np)
            exact ⟨h1.trans g1, h2.trans g2, h3.trans g5, h4.trans (commit_frame _ _ _ hc).2.2.2.2.2.2,
              h5.trans g3, h6.trans g4⟩
        | error p =>
            obtain ⟨er, ebad⟩ := p
            obtain ⟨g1, g2, g3, g4, g5, g6, g7⟩ := commit_err_frame _ _ _ _ hc
            exact ⟨g1, g2, g5, g7, g3, g4⟩
      · rw [if_neg hlt]
        exact ⟨rfl, rfl, rfl, rfl, rfl, rfl⟩

theorem stepLoop_terminates (fuel : ℕ) : ∀ (maxT : ℚ) (e : Engine) (np : List (String × ℚ)),
    0 < e.timeRes → maxT ≤ e.time + fuel * e.timeRes →
    (∀ s, Engine.stepLoop fuel maxT e np ≠ .fuelOut s) ∧
    (∀ e', Engine.stepLoop fuel maxT e np = .ok e' →
      e'.time = if e.time < maxT then maxT else e.time) := by
  induction fuel with
  | zero =>
      intro maxT e np hpos hle
      simp only [Nat.cast_zero, zero_mul, add_zero] at hle
      have hnlt : ¬ e.time < maxT := not_lt.mpr hle
      unfold Engine.stepLoop
      rw [if_neg hnlt]
      refine ⟨by intro s h; exact absurd h (by simp), ?_⟩
      intro e' h
      cases h
      rw [if_neg hnlt]
  | succ fuel ih =>
      intro maxT e np hpos hle
      unfold Engine.stepLoop
      by_cases hlt : e.time < maxT
      · rw [if_pos hlt]
        cases hc : e.commit (e.computeNew (e.substepDt maxT) np) with
        | ok e1 =>
            obtain ⟨_, _, _, _, g5, g6, _⟩ := commit_frame _ _ _ hc
            have hdle : e.time + e.substepDt maxT ≤ maxT := by
              unfold Engine.substepDt
              split
              · linarith
              · rename_i hcond
                push_neg at hcond
                exact hcond
            have hrec := ih maxT { e1 with time := e1.time + e.substepDt maxT }
              (e.computeNew (e.substepDt maxT) np)
              (by simpa [g5] using hpos)
              (by
                simp only [g5, g6]
                unfold Engine.substepDt
                split
                · have : (0:ℚ) ≤ fuel * e.timeRes :=
                    mul_nonneg (Nat.cast_nonneg fuel) (le_of_lt hpos)
                  linarith
                · push_cast at hle ⊢
                  linarith)
            refine ⟨hrec.1, ?_⟩
            intro e' h
            rw [if_pos hlt]
            have := hrec.2 e' h
            by_cases h2 : e1.time + e.substepDt maxT < maxT
            · rw [if_pos h2] at this
              exact this
            · rw [if_neg h2] at this
              rw [this]
              have hle2 : e1.time + e.substepDt maxT ≤ maxT := by rw [g6]; exact hdle
              simp only [not_lt] at h2
              exact le_antisymm hle2 h2
        | error p =>
            obtain ⟨er, ebad⟩ := p
            exact ⟨by intro s h; exact absurd h (by simp),
              by intro e' h; exact absurd h (by simp)⟩
      · rw [if_neg hlt]
        refine ⟨by intro s h; exact absurd h (by simp), ?_⟩
        intro e' h
        cases h
        rw [if_neg hlt]

theorem stepLoop_protected_pressure (fuel : ℕ) :
    ∀ (maxT : ℚ) (e : Engine) (np : List (String × ℚ)) (n : String),
    (∀ k ∈ np.map Prod.fst, k ∉ e.fixedPressures.map Prod.fst ∧ k ≠ ATM) →
    (n ∈ e.fixedPressures.map Prod.fst ∨ n = ATM) →
    (Engine.stepLoop fuel maxT e np).state.pressureOf n = e.pressureOf n := by
  induction fuel with
  | zero =>
      intro maxT e np n _ _
      unfold Engine.stepLoop
      split <;> rfl
  | succ fuel ih =>
      intro maxT e np n hkeys hn
      unfold Engine.stepLoop
      by_cases hlt : e.time < maxT
      · rw [if_pos hlt]
        have hkeys' : ∀ k ∈ (e.computeNew (e.substepDt maxT) np).map Prod.fst,
            k ∉ e.fixedPressures.map Prod.fst ∧ k ≠ ATM := by
          intro k hk
          rcases computeFold_keys e (e.substepDt maxT) k e.nodes np hk with h1 | h1
          · exact hkeys k h1
          · exact h1
        have hnnot : n ∉ (e.computeNew (e.substepDt maxT) np).map Prod.fst := by
          intro hmem
          rcases hkeys' n hmem with ⟨hf, ha⟩
          rcases hn with hn | hn
          · exact hf hn
          · exact ha hn
        cases hc : e.commit (e.computeNew (e.substepDt maxT) np) with
        | ok e1 =>
            have hfix : e1.fixedPressures = e.fixedPressures :=
              commit_fixed_unchanged _ _ _ (fun k hk => (hkeys' k hk).1) hc
            have hp1 : e1.pressureOf n = e.pressureOf n :=
              commit_pressure_not_mem _ _ _ n hnnot hc
            have := ih maxT { e1 with time := e1.time + e.substepDt maxT }
              (e.computeNew (e.substepDt maxT) np) n
              (by
                intro k hk
                refine ⟨?_, (hkeys' k hk).2⟩
                simp only [hfix]
                exact (hkeys' k hk).1)
              (by
                rcases hn with hn | hn
                · exact Or.inl (by simp only [hfix]; exact hn)
                · exact Or.inr hn)
            rw [this]
            simpa [Engine.pressureOf] using hp1
        | error p =>
            obtain ⟨er, ebad⟩ := p
            exact commit_err_pressure_not_mem _ _ _ _ n hnnot hc
      · rw [if_neg hlt]
        rfl

/-- The fuel handed to the integration loop dominates the number of
sub-steps `timestep / time_res` whenever both are positive. -/
theorem stepFuel_le (ts tr : ℚ) (hts : 0 < ts) (htr : 0 < tr) :
    ts ≤ ((stepFuel ts tr : ℕ) : ℚ) * tr := by
  have hdents : (1 : ℚ) ≤ (ts.den : ℚ) := by
    exact_mod_cast Nat.one_le_iff_ne_zero.mpr ts.den_nz
  have hdentr : (0 : ℚ) < (tr.den : ℚ) := by
    exact_mod_cast tr.den_pos
  have hnum_ts : (ts.num : ℚ) = ts * ts.den := by
    have h := Rat.num_div_den ts
    rwa [div_eq_iff (by positivity : ((ts.den : ℚ) ≠ 0))] at h
  have hnum_tr : (tr.num : ℚ) = tr * tr.den := by
    have h := Rat.num_div_den tr
    rwa [div_eq_iff (ne_of_gt hdentr)] at h
  have htrnum : (1 : ℚ) ≤ (tr.num : ℚ) := by
    have h0 : 0 < tr.num := Rat.num_pos.mpr htr
    exact_mod_cast h0
  have htsnum : ts ≤ ((ts.num.toNat : ℕ) : ℚ) := by
    have h0 : 0 < ts.num := Rat.num_pos.mpr hts
    have hcast : ((ts.num.toNat : ℕ) : ℚ) = (ts.num : ℚ) := by
      exact_mod_cast Int.toNat_of_nonneg (le_of_lt h0)
    rw [hcast, hnum_ts]
    nlinarith
  have hdiv : ts / tr ≤ ((stepFuel ts tr : ℕ) : ℚ) := by
    unfold stepFuel
    push_cast
    have h1 : ts / tr ≤ ts * tr.den := by
      rw [div_le_iff₀ htr]
      nlinarith
    have h2 : ts * tr.den ≤ ((ts.num.toNat : ℕ) : ℚ) * tr.den :=
      mul_le_mul_of_nonneg_right htsnum (le_of_lt hdentr)
    nlinarith
  calc ts = ts / tr * tr := by field_simp
    _ ≤ ((stepFuel ts tr : ℕ) : ℚ) * tr :=
        mul_le_mul_of_nonneg_right hdiv (le_of_lt htr)

/-- Unconditional unfolding equation for the integration loop, usable
for evaluating concrete runs by rewriting. -/
theorem stepLoop_eq (fuel : ℕ) (maxT : ℚ) (e : Engine) (np : List (String × ℚ)) :
    Engine.stepLoop fuel maxT e np =
      if e.time < maxT then
        if fuel = 0 then .fuelOut e
        else
          match e.commit (e.computeNew (e.substepDt maxT) np) with
          | .ok e' =>
              Engine.stepLoop (fuel - 1) maxT { e' with time := e'.time + e.substepDt maxT }
                (e.computeNew (e.substepDt maxT) np)
          | .error (er, ebad) => .err er ebad
      else .ok e := by
  cases fuel with
  | zero =>
      unfold Engine.stepLoop
      by_cases h : e.time < maxT
      · rw [if_pos h, if_pos h, if_pos rfl]
      · rw [if_neg h, if_neg h]
  | succ n =>
      by_cases h : e.time < maxT
      · conv_lhs => unfold Engine.stepLoop
        rw [if_pos h, if_pos h, if_neg (Nat.succ_ne_zero n)]
        simp only [Nat.succ_sub_one]
      · conv_lhs => unfold Engine.stepLoop
        rw [if_neg h, if_neg h]

/-! ### Claim C1 -/

set_option maxHeartbeats 1600000 in
/-- **C1 (counterexample).** The claim "for every valid, non-empty
engine and every integer timestep `≥ MIN_TIME_RES`, `step(timestep)`
advances `time` by exactly `timestep`" fails on `egA`: the engine is
valid and non-empty and the timestep `20000` is an integer `≥
MIN_TIME_RES_MICROS`, yet `step` raises `BadInputError` out of the
second sub-step (a computed pressure is negative) and the clock ends at
`10000`, not at `0 + 20000`. -/
theorem step_clock_counterexample :
    egA.nodes ≠ [] ∧ egA.errors = [] ∧ MIN_TIME_RES_MICROS ≤ 20000 ∧
      (20000 : ℚ).den = 1 ∧ 0 < egA.timeRes ∧
      (egA.step 20000).isOk = false ∧
      (egA.step 20000).state.time = 10000 ∧ egA.time + 20000 = 20000 := by
  have hrun : egA.step 20000 = .err (.negativePressure "B")
      { egA with body := [("A", (125, false)), ("B", (75, false))], time := 10000 } := by
    unfold Engine.step
    norm_num +decide [egA, MIN_TIME_RES_MICROS, Engine.shrinkTimeRes, stepFuel,
      Rat.num_ofNat, Rat.den_ofNat]
    rw [stepLoop_eq]
    norm_num +decide [egA, Engine.substepDt, Engine.computeNew, Engine.computeStepFn,
      Engine.dpOf, Engine.pressureOf, Engine.commit, Engine.setPressure, updateAssoc,
      lookupAssoc, ATM]
    rw [stepLoop_eq]
    norm_num +decide [egA, Engine.substepDt, Engine.computeNew, Engine.computeStepFn,
      Engine.dpOf, Engine.pressureOf, Engine.commit, Engine.setPressure, updateAssoc,
      lookupAssoc, ATM]
  refine ⟨by decide, by decide, by norm_num [MIN_TIME_RES_MICROS],
    by norm_num [Rat.den_ofNat], by norm_num [egA], ?_, ?_, by norm_num [egA]⟩
  · rw [hrun]
    rfl
  · rw [hrun]
    rfl

/-- **C1 (amended).** For every valid, non-empty engine with positive
`time_res` and every integer timestep `≥ MIN_TIME_RES`,
`step(timestep)` terminates (the sub-stepping loop needs only finitely
many iterations, the final one clamped to land exactly on
`time + timestep`), and whenever it returns normally — i.e. no
sub-step's committed pressure is negative — the clock has advanced by
exactly `timestep`. -/
theorem step_clock_exact_of_ok (e : Engine) (ts : ℚ)
    (hne : e.nodes ≠ []) (hval : e.errors = []) (hmin : MIN_TIME_RES_MICROS ≤ ts)
    (hint : ts.den = 1) (hpos : 0 < e.timeRes) :
    (∀ s, e.step ts ≠ .fuelOut s) ∧
    (∀ e', e.step ts = .ok e' → e'.time = e.time + ts) := by
  have hts : (0 : ℚ) < ts := lt_of_lt_of_le (by norm_num [MIN_TIME_RES_MICROS]) hmin
  have htr : 0 < (e.shrinkTimeRes ts).timeRes := by
    unfold Engine.shrinkTimeRes
    split
    · exact hts
    · exact hpos
  have htime : (e.shrinkTimeRes ts).time = e.time := by
    unfold Engine.shrinkTimeRes
    split <;> rfl
  have hfuel : (e.shrinkTimeRes ts).time + ts ≤ (e.shrinkTimeRes ts).time +
      ((stepFuel ts (e.shrinkTimeRes ts).timeRes : ℕ) : ℚ) * (e.shrinkTimeRes ts).timeRes := by
    have := stepFuel_le ts (e.shrinkTimeRes ts).timeRes hts htr
    linarith
  have hmain := stepLoop_terminates (stepFuel ts (e.shrinkTimeRes ts).timeRes)
    ((e.shrinkTimeRes ts).time + ts) (e.shrinkTimeRes ts) [] htr hfuel
  have hunfold : e.step ts = (e.shrinkTimeRes ts).stepLoop
      (stepFuel ts (e.shrinkTimeRes ts).timeRes)
      ((e.shrinkTimeRes ts).time + ts) [] := by
    unfold Engine.step
    rw [if_neg hne, if_neg (by simp [hval]), if_neg (not_lt.mpr hmin),
      if_neg (by simp [hint])]
  constructor
  · intro s h
    rw [hunfold] at h
    exact hmain.1 s h
  · intro e' h
    rw [hunfold] at h
    have hfin := hmain.2 e' h
    rw [if_pos (by linarith)] at hfin
    rw [hfin, htime]

/-- **C1 (witness).** The amended claim applied to the concrete engine
`egB` with timestep `25000`. -/
theorem step_clock_exact_witness :
    (∀ s, egB.step 25000 ≠ .fuelOut s) ∧
    (∀ e', egB.step 25000 = .ok e' → e'.time = egB.time + 25000) :=
  step_clock_exact_of_ok egB 25000 (by decide) (by decide)
    (by norm_num [MIN_TIME_RES_MICROS]) (by norm_num) (by norm_num [egB])

/-! ### Claim C3 -/

/-- **C3.** For every call to `step`, every node in `fixed_pressures`
and the `ATM` node have exactly the same pressure after the call as
before it, on every outcome of the call (normal return or raise):
integration never mutates fixed or atmospheric pressures. -/
theorem step_preserves_fixed_and_atm (e : Engine) (ts : ℚ) (n : String)
    (hn : n ∈ e.fixedPressures.map Prod.fst ∨ n = ATM) :
    (e.step ts).state.pressureOf n = e.pressureOf n := by
  unfold Engine.step
  by_cases h1 : e.nodes = []
  · rw [if_pos h1]; rfl
  · rw [if_neg h1]
    by_cases h2 : e.errors ≠ []
    · rw [if_pos h2]; rfl
    · rw [if_neg h2]
      by_cases h3 : ts < MIN_TIME_RES_MICROS
      · rw [if_pos h3]; rfl
      · rw [if_neg h3]
        have hshrinkp : (e.shrinkTimeRes ts).pressureOf n = e.pressureOf n := by
          unfold Engine.shrinkTimeRes
          split <;> rfl
        have hshrinkf : (e.shrinkTimeRes ts).fixedPressures = e.fixedPressures := by
          unfold Engine.shrinkTimeRes
          split <;> rfl
        by_cases h4 : ts.den ≠ 1
        · rw [if_pos h4]
          exact hshrinkp
        · rw [if_neg h4]
          rw [stepLoop_protected_pressure _ _ _ _ n (by simp)
            (by rw [hshrinkf]; exact hn)]
          exact hshrinkp

/-- **C3 (witness).** The fixed node `F` of `egC` keeps its pressure
across a `step` call. -/
theorem step_preserves_fixed_witness :
    ("F" ∈ egC.fixedPressures.map Prod.fst ∨ "F" = ATM) ∧
      (egC.step 10000).state.pressureOf "F" = egC.pressureOf "F" :=
  ⟨Or.inl (by decide), step_preserves_fixed_and_atm egC 10000 "F" (Or.inl (by decide))⟩

/-! ### Claim C5 -/

/-- **C5.** On a non-empty, valid engine, `step(timestep)` raises
`BadInputError` whenever `timestep < MIN_TIME_RES` or `timestep` is not
integer-valued; otherwise, when `MIN_TIME_RES ≤ timestep < time_res`,
the engine first shrinks `time_res` to `timestep` and then integrates
using it (the integration loop runs on the shrunken engine, and a
normal return still carries `time_res = timestep`). -/
theorem step_timestep_validation (e : Engine) (ts : ℚ)
    (hne : e.nodes ≠ []) (hval : e.errors = []) :
    (ts < MIN_TIME_RES_MICROS → e.step ts = .err .tsTooLow e) ∧
    (MIN_TIME_RES_MICROS ≤ ts → ts.den ≠ 1 →
      e.step ts = .err .tsNotInt (e.shrinkTimeRes ts)) ∧
    (MIN_TIME_RES_MICROS ≤ ts → ts.den = 1 → ts < e.timeRes →
      e.step ts = Engine.stepLoop (stepFuel ts ts) (e.time + ts)
        { e with timeRes := ts } [] ∧
      (∀ e', e.step ts = .ok e' → e'.timeRes = ts)) := by
  refine ⟨?_, ?_, ?_⟩
  · intro hlow
    unfold Engine.step
    rw [if_neg hne, if_neg (by simp [hval]), if_pos hlow]
  · intro hmin hden
    unfold Engine.step
    rw [if_neg hne, if_neg (by simp [hval]), if_neg (not_lt.mpr hmin), if_pos hden]
  · intro hmin hden hlt
    have hshr : e.shrinkTimeRes ts = { e with timeRes := ts } := by
      unfold Engine.shrinkTimeRes
      rw [if_pos hlt]
    have hunfold : e.step ts = Engine.stepLoop (stepFuel ts ts) (e.time + ts)
        { e with timeRes := ts } [] := by
      unfold Engine.step
      rw [if_neg hne, if_neg (by simp [hval]), if_neg (not_lt.mpr hmin),
        if_neg (by simp [hden]), hshr]
    refine ⟨hunfold, ?_⟩
    intro e' h
    rw [hunfold] at h
    have := (stepLoop_frame (stepFuel ts ts) (e.time + ts)
      { e with timeRes := ts } []).2.2.1
    rw [h] at this
    exact this

/-- **C5 (witness).** `step` on the valid non-empty engine `egB` with
the sub-minimum timestep `1/2` raises, and with the integer timestep
`5000 < time_res = 10000` it shrinks `time_res` to `5000`. -/
theorem step_timestep_validation_witness :
    egB.step (1/2) = .err .tsTooLow egB ∧
      (∀ e', egB.step 5000 = .ok e' → e'.timeRes = 5000) :=
  ⟨(step_timestep_validation egB (1/2) (by decide) (by decide)).1
      (by norm_num [MIN_TIME_RES_MICROS]),
    ((step_timestep_validation egB 5000 (by decide) (by decide)).2.2
      (by norm_num [MIN_TIME_RES_MICROS]) (by norm_num) (by norm_num [egB])).2⟩

/-! ### Claim C2 -/

theorem dp_foldl_sub (e : Engine) (n : String) :
    ∀ (l : List GraphEdge) (a : ℚ),
    l.foldl (fun dp ed =>
        if e.pressureOf ed.dst < e.pressureOf n then
          dp - ed.fc * (e.pressureOf n - e.pressureOf ed.dst) else dp) a =
      a - ((l.filter (fun ed => e.pressureOf ed.dst < e.pressureOf n)).map
        (fun ed => ed.fc * (e.pressureOf n - e.pressureOf ed.dst))).sum := by
  intro l
  induction l with
  | nil => intro a; simp
  | cons hd tl ih =>
      intro a
      by_cases h : e.pressureOf hd.dst < e.pressureOf n
      · rw [List.foldl_cons, if_pos h, ih]
        simp [List.filter_cons, h]
        ring
      · rw [List.foldl_cons, if_neg h, ih]
        simp [List.filter_cons, h]

theorem dp_foldl_add (e : Engine) (n : String) :
    ∀ (l : List GraphEdge) (a : ℚ),
    l.foldl (fun dp ed =>
        if e.pressureOf n < e.pressureOf ed.src then
          dp + ed.fc * (e.pressureOf ed.src - e.pressureOf n) else dp) a =
      a + ((l.filter (fun ed => e.pressureOf n < e.pressureOf ed.src)).map
        (fun ed => ed.fc * (e.pressureOf ed.src - e.pressureOf n))).sum := by
  intro l
  induction l with
  | nil => intro a; simp
  | cons hd tl ih =>
      intro a
      by_cases h : e.pressureOf n < e.pressureOf hd.src
      · rw [List.foldl_cons, if_pos h, ih]
        simp [List.filter_cons, h]
        ring
      · rw [List.foldl_cons, if_neg h, ih]
        simp [List.filter_cons, h]

/-- The loop-shaped delta of the source equals the specification's
difference of sums. -/
theorem dpOf_eq_dpSpec (e : Engine) (n : String) : e.dpOf n = e.dpSpec n := by
  unfold Engine.dpOf Engine.dpSpec
  dsimp only
  rw [dp_foldl_sub e n, dp_foldl_add e n]
  rw [List.filter_filter, List.filter_filter]
  have h1 : (fun ed : GraphEdge =>
      decide (e.pressureOf ed.dst < e.pressureOf n) && decide (ed.src = n)) =
      (fun ed : GraphEdge => decide (ed.src = n ∧ e.pressureOf ed.dst < e.pressureOf n)) := by
    funext ed
    rw [Bool.and_comm]
    simp
  have h2 : (fun ed : GraphEdge =>
      decide (e.pressureOf n < e.pressureOf ed.src) && decide (ed.dst = n)) =
      (fun ed : GraphEdge => decide (ed.dst = n ∧ e.pressureOf n < e.pressureOf ed.src)) := by
    funext ed
    rw [Bool.and_comm]
    simp
  rw [h1, h2]
  ring

theorem lookupAssoc_mem {β : Type} (l : List (String × β)) (k : String) (v : β)
    (h : lookupAssoc l k = some v) : (k, v) ∈ l := by
  induction l with
  | nil => simp [lookupAssoc] at h
  | cons hd tl ih =>
      unfold lookupAssoc at h
      split at h
      · rename_i heq
        cases h
        have hhd : hd = (k, hd.2) := by
          rw [← heq]
        rw [hhd]
        exact List.mem_cons_self _ _
      · right
        exact ih h

/-- **C2.** In every sub-step of `step`, for each node `n` that is
neither in `fixed_pressures` nor `ATM`, the pressure committed by the
sub-step equals `p + dt ⬝ dp`, where `p` is `n`'s pressure in the
snapshot `e` taken at the start of the sub-step and `dp` subtracts
`FC ⬝ (p − p_m)` over out-edges with `p > p_m` and adds `FC ⬝ (p_m − p)`
over in-edges with `p < p_m`, all neighbor pressures being read from
the same snapshot; the update reaches the engine only through the
commit executed after every node has been processed (synchronous
explicit Euler). -/
theorem substep_euler_formula (e : Engine) (dt : ℚ) (np : List (String × ℚ)) (e' : Engine)
    (n : String) (hnodes : e.nodes.Nodup) (hnp : (np.map Prod.fst).Nodup)
    (hn : n ∈ e.nodes) (hnf : n ∉ e.fixedPressures.map Prod.fst) (hna : n ≠ ATM)
    (hcommit : e.commit (e.computeNew dt np) = .ok e') :
    e'.pressureOf n = e.pressureOf n + dt * e.dpSpec n := by
  have hkeys : ((e.computeNew dt np).map Prod.fst).Nodup :=
    computeFold_keys_nodup e dt e.nodes np hnp
  have hlook : lookupAssoc (e.computeNew dt np) n =
      some (e.pressureOf n + e.dpOf n * dt) :=
    computeFold_lookup_mem e dt n e.nodes np hn hnodes hnf hna
  have hmem := lookupAssoc_mem _ _ _ hlook
  have := commit_pressure_mem _ _ _ _ _ hkeys hmem hcommit
  rw [this, dpOf_eq_dpSpec]
  ring

/-- **C2 (witness).** The Euler formula evaluated on the concrete
engine `egC`: the free node `X` lands exactly on `p + dt ⬝ dp = 250`. -/
theorem substep_euler_formula_witness :
    egC.commit (egC.computeNew 10000 []) = .ok egCafter ∧
      egCafter.pressureOf "X" = egC.pressureOf "X" + 10000 * egC.dpSpec "X" := by
  have hcommit : egC.commit (egC.computeNew 10000 []) = .ok egCafter := by
    norm_num +decide [egC, egCafter, Engine.computeNew, Engine.computeStepFn, Engine.dpOf,
      Engine.pressureOf, Engine.commit, Engine.setPressure, updateAssoc, lookupAssoc, ATM]
  exact ⟨hcommit,
    substep_euler_formula egC 10000 [] egCafter "X" (by decide) (by decide) (by decide)
      (by decide) (by decide) hcommit⟩

/-! ### Claim C10 -/

theorem commit_append_err (l₁ : List (String × ℚ)) :
    ∀ (e e₁ : Engine) (n : String) (p : ℚ) (l₂ : List (String × ℚ)) (er : PlumbErr),
    e.commit l₁ = .ok e₁ → e₁.setPressure n p false = .error er →
    e.commit (l₁ ++ (n, p) :: l₂) = .error (er, e₁) := by
  induction l₁ with
  | nil =>
      intro e e₁ n p l₂ er hok herr
      have he : e = e₁ := by
        simpa [Engine.commit] using hok
      subst he
      rw [List.nil_append]
      unfold Engine.commit
      rw [herr]
  | cons hd tl ih =>
      intro e e₁ n p l₂ er hok herr
      obtain ⟨hk, hv⟩ := hd
      unfold Engine.commit at hok
      rw [List.cons_append]
      show (match e.setPressure hk hv false with
        | .ok e' => e'.commit (tl ++ (n, p) :: l₂)
        | .error er' => .error (er', e)) = .error (er, e₁)
      cases hsp : e.setPressure hk hv false with
      | ok emid =>
          rw [hsp] at hok
          exact ih emid e₁ n p l₂ er hok herr
      | error er' =>
          rw [hsp] at hok
          simp at hok

/-- **C10.** If, in a sub-step of `step`'s integration loop, the
computed `new_pressures` dict contains a negative entry `(n, p)` and
every entry before it commits successfully, the loop raises
`BadInputError` out of the commit's `set_pressure` call instead of
returning: the resulting engine state is exactly the partial-commit
state `e₁`, in which the entries before `(n, p)` are already written,
the clock still reads the sub-step's start time (so all earlier
sub-steps' pressures and clock advances are retained), and step does
not roll the engine back. -/
theorem step_negative_commit_raises (fuel : ℕ) (maxT : ℚ) (e e₁ : Engine)
    (np l₁ l₂ : List (String × ℚ)) (n : String) (p : ℚ)
    (hfuel : fuel ≠ 0) (hlt : e.time < maxT)
    (hsplit : e.computeNew (e.substepDt maxT) np = l₁ ++ (n, p) :: l₂)
    (hnd : (l₁.map Prod.fst).Nodup)
    (hok : e.commit l₁ = .ok e₁) (hneg : p < 0) :
    Engine.stepLoop fuel maxT e np = .err (.negativePressure n) e₁ ∧
      e₁.time = e.time ∧
      (∀ m q, (m, q) ∈ l₁ → e₁.pressureOf m = q) := by
  have hsp : e₁.setPressure n p false = .error (.negativePressure n) := by
    unfold Engine.setPressure
    rw [if_pos hneg]
  have hcommit := commit_append_err l₁ e e₁ n p l₂ (.negativePressure n) hok hsp
  rw [← hsplit] at hcommit
  obtain ⟨fuel', rfl⟩ := Nat.exists_eq_succ_of_ne_zero hfuel
  refine ⟨?_, (commit_frame _ _ _ hok).2.2.2.2.2.1, ?_⟩
  · unfold Engine.stepLoop
    rw [if_pos hlt, hcommit]
  · intro m q hmq
    exact commit_pressure_mem _ _ _ _ _ hnd hmq hok

/-- **C10 (witness).** The failing second sub-step of `egA.step 20000`:
from the mid-run state `egAmid`, the dict is `[(A, 125), (B, −25)]`,
`A` is committed, and the loop raises on `B` leaving `A = 125` and the
clock at the sub-step's start. -/
theorem step_negative_commit_raises_witness :
    Engine.stepLoop 2 20000 egAmid [("A", 25), ("B", 75)] =
        .err (.negativePressure "B") egAbad ∧
      egAbad.time = egAmid.time ∧
      (∀ m q, (m, q) ∈ [("A", (125 : ℚ))] → egAbad.pressureOf m = q) := by
  have hsplit : egAmid.computeNew (egAmid.substepDt 20000) [("A", 25), ("B", 75)] =
      [("A", (125 : ℚ))] ++ ("B", (-25 : ℚ)) :: [] := by
    norm_num +decide [egAmid, egA, Engine.substepDt, Engine.computeNew, Engine.computeStepFn,
      Engine.dpOf, Engine.pressureOf, updateAssoc, lookupAssoc, ATM]
  have hok : egAmid.commit [("A", (125 : ℚ))] = .ok egAbad := by
    norm_num +decide [egAmid, egAbad, egA, Engine.commit, Engine.setPressure, updateAssoc, ATM]
  exact step_negative_commit_raises 2 20000 egAmid egAbad [("A", 25), ("B", 75)]
    [("A", (125 : ℚ))] [] "B" (-25) (by norm_num) (by norm_num [egAmid, egA])
    hsplit (by decide) hok (by norm_num)

/-! ### Claim C9 -/

theorem listGet_congr {α : Type} {l l' : List α} (h : l = l') (i : ℕ) (hi : i < l.length) :
    l.get ⟨i, hi⟩ = l'.get ⟨i, h ▸ hi⟩ := by
  subst h
  rfl

theorem buildSteps_append (name : String) (succ0 : Option StepInfo) (a : StepInfo) :
    ∀ (xs : List StepInfo),
    buildSteps name succ0 (xs ++ [a]) =
      buildSteps name (some a) xs ++ [mkProcStep name a succ0] := by
  intro xs
  induction xs with
  | nil => rfl
  | cons x xs' ih =>
      cases xs' with
      | nil => rfl
      | cons y ys =>
          simp only [List.cons_append, buildSteps, List.append_eq]
          rw [List.cons_append] at ih
          rw [ih]

theorem procedureRevLoop_spec (name : String) :
    ∀ (l : List StepInfo) (succ0 : Option StepInfo) (acc : List ProcedureStep),
    procedureRevLoop name l succ0 acc = buildSteps name succ0 l.reverse ++ acc := by
  intro l
  induction l with
  | nil => intro succ0 acc; rfl
  | cons info rest ih =>
      intro succ0 acc
      simp only [procedureRevLoop]
      rw [ih, List.reverse_cons, buildSteps_append name succ0 info rest.reverse,
        List.append_assoc, List.singleton_append]
      rfl

theorem procedureOf_steps (name : String) (infos : List StepInfo) :
    (procedureOf name infos).steps = buildSteps name none infos := by
  unfold procedureOf
  simp only
  rw [procedureRevLoop_spec, List.reverse_reverse, List.append_nil]

theorem buildSteps_length (name : String) (succ0 : Option StepInfo) :
    ∀ (l : List StepInfo), (buildSteps name succ0 l).length = l.length := by
  intro l
  induction l with
  | nil => rfl
  | cons a rest ih =>
      cases rest with
      | nil => rfl
      | cons b ys =>
          simp only [buildSteps, List.length_cons] at ih ⊢
          rw [ih]

theorem procedureOf_length (name : String) (infos : List StepInfo) :
    (procedureOf name infos).steps.length = infos.length := by
  rw [procedureOf_steps, buildSteps_length]

theorem buildSteps_get (name : String) (succ0 : Option StepInfo) :
    ∀ (l : List StepInfo) (i : ℕ) (hi : i < l.length),
    (buildSteps name succ0 l).get ⟨i, by rw [buildSteps_length]; exact hi⟩ =
      mkProcStep name (l.get ⟨i, hi⟩)
        (if h : i + 1 < l.length then some (l.get ⟨i + 1, h⟩) else succ0) := by
  intro l
  induction l with
  | nil => intro i hi; simp at hi
  | cons a rest ih =>
      intro i hi
      cases rest with
      | nil =>
          cases i with
          | zero => rfl
          | succ j => simp at hi
      | cons b ys =>
          cases i with
          | zero =>
              simp only [buildSteps, List.get]
              rw [dif_pos (by simp : (0 : ℕ) + 1 < (a :: b :: ys).length)]
          | succ j =>
              have hj : j < (b :: ys).length := by
                simpa using hi
              have hrec := ih j hj
              simp only [buildSteps, List.get] at hrec ⊢
              rw [hrec]
              by_cases h2 : j + 1 < (b :: ys).length
              · rw [dif_pos h2, dif_pos (by simpa using Nat.succ_lt_succ h2)]
              · rw [dif_neg h2,
                  dif_neg (by simpa using fun h => h2 (Nat.lt_of_succ_lt_succ h))]

/-- **C9.** For every ProcLang procedure built by the transformer from
`n` step records: the step list keeps its length; step `i` with
`i + 1 < n` carries its deviations in source order followed by the
automatically appended natural-successor transition, targeting step
`i + 1` and guarded by step `i + 1`'s attached entry condition; the
last step carries only its deviations; when no step has deviations,
each non-final step carries exactly one outbound transition and the
last step none; and a step parsed without an entry condition gets
`Immediate` as its entry condition. -/
theorem proclang_transition_structure (name : String) (infos : List StepInfo) (i : ℕ)
    (hlen : i < infos.length) :
    ((procedureOf name infos).steps.length = infos.length) ∧
    (∀ hsucc : i + 1 < infos.length,
      ((procedureOf name infos).steps.get
          ⟨i, by rw [procedureOf_length]; exact hlen⟩).conditionsOut =
        (infos.get ⟨i, hlen⟩).conditionsOut ++
          [((infos.get ⟨i + 1, hsucc⟩).conditionIn,
            ProcTransition.mk name (infos.get ⟨i + 1, hsucc⟩).id)]) ∧
    (i + 1 = infos.length →
      ((procedureOf name infos).steps.get
          ⟨i, by rw [procedureOf_length]; exact hlen⟩).conditionsOut =
        (infos.get ⟨i, hlen⟩).conditionsOut) ∧
    ((∀ s ∈ infos, s.conditionsOut = []) → ∀ hsucc : i + 1 < infos.length,
      ((procedureOf name infos).steps.get
          ⟨i, by rw [procedureOf_length]; exact hlen⟩).conditionsOut =
        [((infos.get ⟨i + 1, hsucc⟩).conditionIn,
          ProcTransition.mk name (infos.get ⟨i + 1, hsucc⟩).id)]) ∧
    (∀ id pers act devs, (stepInfoOf id pers none act devs).conditionIn =
      ProcCondition.immediate) := by
  have hget :
      (procedureOf name infos).steps.get ⟨i, by rw [procedureOf_length]; exact hlen⟩ =
        mkProcStep name (infos.get ⟨i, hlen⟩)
          (if h : i + 1 < infos.length then some (infos.get ⟨i + 1, h⟩) else none) := by
    rw [listGet_congr (procedureOf_steps name infos) i
      (by rw [procedureOf_length]; exact hlen)]
    exact buildSteps_get name none infos i hlen
  refine ⟨procedureOf_length name infos, ?_, ?_, ?_, ?_⟩
  · intro hsucc
    rw [hget, dif_pos hsucc]
    rfl
  · intro hlast
    rw [hget, dif_neg (by rw [hlast]; exact lt_irrefl _)]
    simp [mkProcStep]
  · intro hdev hsucc
    rw [hget, dif_pos hsucc]
    show (infos.get ⟨i, hlen⟩).conditionsOut ++ _ = _
    rw [hdev (infos.get ⟨i, hlen⟩) (infos.get_mem _ _)]
    rfl
  · intro id pers act devs
    rfl

/-- **C9 (witness).** The two-step deviation-free procedure
`[si1, si2]`: step 1 carries exactly the transition to step 2 guarded
by step 2's `WaitFor` entry condition, step 2 carries none, and `si1`
(parsed without an entry condition) got `Immediate`. -/
theorem proclang_transition_structure_witness :
    ((procedureOf "main" [si1, si2]).steps.get
        ⟨0, by rw [procedureOf_length]; norm_num⟩).conditionsOut =
      [(ProcCondition.waitFor 1000000, ProcTransition.mk "main" "2")] ∧
    ((procedureOf "main" [si1, si2]).steps.get
        ⟨1, by rw [procedureOf_length]; norm_num⟩).conditionsOut = [] ∧
    si1.conditionIn = ProcCondition.immediate := by
  refine ⟨?_, ?_, ?_⟩
  · have := (proclang_transition_structure "main" [si1, si2] 0 (by norm_num)).2.2.2.1
      (by
        intro st hst
        simp only [List.mem_cons, List.not_mem_nil, or_false] at hst
        rcases hst with h | h
        · rw [h]; rfl
        · rw [h]; rfl)
      (by norm_num)
    rw [this]
    rfl
  · have := (proclang_transition_structure "main" [si1, si2] 1 (by norm_num)).2.2.1
      (by norm_num)
    rw [this]
    rfl
  · exact (proclang_transition_structure "main" [si1, si2] 0 (by norm_num)).2.2.2.2
      "1" "ops" (.misc "open vent") []

/-! ### Claim C4 -/

theorem updateAssoc_mem_sub {α β : Type} [DecidableEq α] (k : α) (v : β) :
    ∀ (l : List (α × β)) (x : α × β), x ∈ updateAssoc l k v → x = (k, v) ∨ x ∈ l := by
  intro l
  induction l with
  | nil =>
      intro x hx
      simp only [updateAssoc, List.mem_singleton] at hx
      exact Or.inl hx
  | cons hd tl ih =>
      intro x hx
      by_cases h : hd.1 = k
      · rw [show updateAssoc (hd :: tl) k v = (k, v) :: tl by
          simp [updateAssoc, h]] at hx
        rcases List.mem_cons.mp hx with h1 | h1
        · exact Or.inl h1
        · exact Or.inr (List.mem_cons_of_mem hd h1)
      · rw [show updateAssoc (hd :: tl) k v = hd :: updateAssoc tl k v by
          simp [updateAssoc, h]] at hx
        rcases List.mem_cons.mp hx with h1 | h1
        · exact Or.inr (h1 ▸ List.mem_cons_self hd tl)
        · rcases ih x h1 with h2 | h2
          · exact Or.inl h2
          · exact Or.inr (List.mem_cons_of_mem hd h2)

theorem teq_to_FC_bounds (t : ℚ) (ht : 0 < t) :
    0 < teq_to_FC t ∧ teq_to_FC t ≤ FC_MAX := by
  unfold teq_to_FC FC_MAX TEQ_MIN
  split
  · norm_num
  · rename_i h
    push_neg at h
    norm_num [TEQ_MIN] at h
    constructor
    · positivity
    · rw [div_le_div_iff ht (by norm_num)]
      linarith

theorem maxFcStep_bounds (m : ℚ) (p : CompEdge × ℚ) (hm : 0 < m) (hM : m ≤ FC_MAX)
    (hp : 0 ≤ p.2 ∧ p.2 ≤ FC_MAX) : 0 < maxFcStep m p ∧ maxFcStep m p ≤ FC_MAX := by
  unfold maxFcStep
  split
  · rename_i h
    exact ⟨lt_trans hm h.2, hp.2⟩
  · exact ⟨hm, hM⟩

theorem maxFcFold_bounds :
    ∀ (l : List (CompEdge × ℚ)), (∀ p ∈ l, 0 ≤ p.2 ∧ p.2 ≤ FC_MAX) →
    ∀ m, 0 < m → m ≤ FC_MAX → 0 < l.foldl maxFcStep m ∧ l.foldl maxFcStep m ≤ FC_MAX := by
  intro l
  induction l with
  | nil => intro _ m hm hM; exact ⟨hm, hM⟩
  | cons hd tl ih =>
      intro hl m hm hM
      simp only [List.foldl_cons]
      have hstep := maxFcStep_bounds m hd hm hM (hl hd (by simp))
      exact ih (fun p hp => hl p (by simp [hp])) _ hstep.1 hstep.2

theorem maxFcStates_bounds :
    ∀ (sts : List (String × List (CompEdge × ℚ))),
    (∀ st ∈ sts, ∀ p ∈ st.2, 0 ≤ p.2 ∧ p.2 ≤ FC_MAX) →
    ∀ m, 0 < m → m ≤ FC_MAX →
    0 < sts.foldl maxFcState m ∧ sts.foldl maxFcState m ≤ FC_MAX := by
  intro sts
  induction sts with
  | nil => intro _ m hm hM; exact ⟨hm, hM⟩
  | cons hd tl ih =>
      intro hsts m hm hM
      simp only [List.foldl_cons]
      have hstep := maxFcFold_bounds hd.2 (fun p hp => hsts hd (by simp) p hp) m hm hM
      exact ih (fun st hst p hp => hsts st (by simp [hst]) p hp)
        _ hstep.1 hstep.2

theorem setTimeRes_dict (e : Engine) (c : String) :
    (e.setTimeRes c).componentDict = e.componentDict ∧
      (e.setTimeRes c).nodes = e.nodes ∧ (e.setTimeRes c).edges = e.edges ∧
      (e.setTimeRes c).errors = e.errors ∧ (e.setTimeRes c).time = e.time ∧
      (e.setTimeRes c).body = e.body ∧ (e.setTimeRes c).mapping = e.mapping ∧
      (e.setTimeRes c).fixedPressures = e.fixedPressures := by
  unfold Engine.setTimeRes
  cases lookupAssoc e.componentDict c with
  | none => exact ⟨rfl, rfl, rfl, rfl, rfl, rfl, rfl, rfl⟩
  | some comp =>
      simp only
      split
      · exact ⟨rfl, rfl, rfl, rfl, rfl, rfl, rfl, rfl⟩
      · exact ⟨rfl, rfl, rfl, rfl, rfl, rfl, rfl, rfl⟩

theorem setTimeRes_lb (e : Engine) (c : String) (hcomps : e.compsOK)
    (hlb : MIN_TIME_RES_MICROS ≤ e.timeRes) :
    MIN_TIME_RES_MICROS ≤ (e.setTimeRes c).timeRes := by
  cases hc : lookupAssoc e.componentDict c with
  | none =>
      unfold Engine.setTimeRes
      rw [hc]
      exact hlb
  | some comp =>
      unfold Engine.setTimeRes
      rw [hc]
      simp only
      have hcompOK : compFCsOK comp := hcomps (c, comp) (lookupAssoc_mem _ _ _ hc)
      have htr : (0 : ℚ) < e.timeRes :=
        lt_of_lt_of_le (by norm_num [MIN_TIME_RES_MICROS]) hlb
      have hmul : (0 : ℚ) < e.timeRes * DEFAULT_RESOLUTION_SCALE := by
        have : (0 : ℚ) < DEFAULT_RESOLUTION_SCALE := by norm_num [DEFAULT_RESOLUTION_SCALE]
        positivity
      have hinit := teq_to_FC_bounds _ hmul
      have hfold := maxFcStates_bounds comp.states
        (fun st hst p hp => hcompOK st hst p hp) _ hinit.1 hinit.2
      rw [if_pos (ne_of_gt hfold.1)]
      have hteq : (1000 : ℚ) ≤ FC_to_teq (comp.states.foldl maxFcState
          (teq_to_FC (e.timeRes * DEFAULT_RESOLUTION_SCALE))) := by
        unfold FC_to_teq
        rw [le_div_iff hfold.1]
        have := hfold.2
        unfold FC_MAX TEQ_MIN at this
        nlinarith
      have hq : (50 : ℚ) ≤ FC_to_teq (comp.states.foldl maxFcState
          (teq_to_FC (e.timeRes * DEFAULT_RESOLUTION_SCALE))) / DEFAULT_RESOLUTION_SCALE := by
        rw [le_div_iff₀ (by norm_num [DEFAULT_RESOLUTION_SCALE] :
          (0 : ℚ) < DEFAULT_RESOLUTION_SCALE)]
        calc (50 : ℚ) * DEFAULT_RESOLUTION_SCALE = 1000 := by
              norm_num [DEFAULT_RESOLUTION_SCALE]
          _ ≤ _ := hteq
      show MIN_TIME_RES_MICROS ≤ ((pyInt _ : ℤ) : ℚ)
      unfold pyInt
      rw [if_pos (by linarith)]
      have h50 : (50 : ℤ) ≤ ⌊FC_to_teq (comp.states.foldl maxFcState
          (teq_to_FC (e.timeRes * DEFAULT_RESOLUTION_SCALE))) / DEFAULT_RESOLUTION_SCALE⌋ :=
        Int.le_floor.mpr (by exact_mod_cast hq)
      have : (50 : ℚ) ≤ ((⌊FC_to_teq (comp.states.foldl maxFcState
          (teq_to_FC (e.timeRes * DEFAULT_RESOLUTION_SCALE))) / DEFAULT_RESOLUTION_SCALE⌋ : ℤ) : ℚ) := by
        exact_mod_cast h50
      unfold MIN_TIME_RES_MICROS
      linarith

theorem addEdge_frame (e : Engine) (u v k : String) :
    (e.addEdge u v k).timeRes = e.timeRes ∧
      (e.addEdge u v k).componentDict = e.componentDict ∧
      (e.addEdge u v k).mapping = e.mapping ∧
      (e.addEdge u v k).time = e.time := by
  unfold Engine.addEdge
  exact ⟨rfl, rfl, rfl, rfl⟩

theorem addEdgesLoop_frame (name : String) (mapping : List (String × String))
    (failSilently : Bool) : ∀ (l : List CompEdge) (e : Engine),
    (exceptState (Engine.addEdgesLoop name mapping failSilently e l)).timeRes = e.timeRes ∧
    (exceptState (Engine.addEdgesLoop name mapping failSilently e l)).componentDict =
      e.componentDict := by
  intro l
  induction l with
  | nil => intro e; exact ⟨rfl, rfl⟩
  | cons ce rest ih =>
      intro e
      cases hs : (lookupAssoc mapping ce.src).isSome <;>
        cases he : (lookupAssoc mapping ce.dst).isSome <;>
          cases hf : failSilently <;>
            simp only [Engine.addEdgesLoop, hs, he, hf] <;>
              first
                | exact ⟨rfl, rfl⟩
                | (rw [hf] at ih; exact ih _)

theorem sceStep_frame (cn c : String) (cmap : List (String × String))
    (acc : Engine × List ((String × String × String) × ℚ)) (pr : CompEdge × ℚ) :
    ((sceStep cn c cmap acc pr).1.timeRes = acc.1.timeRes) ∧
      ((sceStep cn c cmap acc pr).1.componentDict = acc.1.componentDict) := by
  cases hs : (lookupAssoc cmap pr.1.src).isSome <;>
    cases he : (lookupAssoc cmap pr.1.dst).isSome <;>
      simp [sceStep, hs, he]

theorem sceFold_frame (cn c : String) (cmap : List (String × String)) :
    ∀ (l : List (CompEdge × ℚ)) (acc : Engine × List ((String × String × String) × ℚ)),
    ((l.foldl (sceStep cn c cmap) acc).1.timeRes = acc.1.timeRes) ∧
      ((l.foldl (sceStep cn c cmap) acc).1.componentDict = acc.1.componentDict) := by
  intro l
  induction l with
  | nil => intro acc; exact ⟨rfl, rfl⟩
  | cons hd tl ih =>
      intro acc
      simp only [List.foldl_cons]
      obtain ⟨h1, h2⟩ := ih (sceStep cn c cmap acc hd)
      obtain ⟨g1, g2⟩ := sceStep_frame cn c cmap acc hd
      exact ⟨h1.trans g1, h2.trans g2⟩

theorem setComponentState_timeRes (e : Engine) (c st : String) :
    (exceptState (e.setComponentState c st)).timeRes = e.timeRes := by
  unfold Engine.setComponentState
  split
  · rfl
  · split
    · rfl
    · rename_i comp _
      split
      · rfl
      · simp only [exceptState]
        exact (sceFold_frame comp.name c ((lookupAssoc e.mapping c).getD [])
          ((lookupAssoc comp.states st).getD [])
          ({ e with componentDict := (updateAssoc e.componentDict c
              { comp with currentState := st }) }, [])).1

theorem setComponentState_compsOK (e : Engine) (c st : String) (hcomps : e.compsOK) :
    (exceptState (e.setComponentState c st)).compsOK := by
  unfold Engine.setComponentState
  split
  · exact hcomps
  · split
    · exact hcomps
    · rename_i comp hcompEq
      split
      · exact hcomps
      · simp only [exceptState]
        have hdict := (sceFold_frame comp.name c ((lookupAssoc e.mapping c).getD [])
          ((lookupAssoc comp.states st).getD [])
          ({ e with componentDict := (updateAssoc e.componentDict c
              { comp with currentState := st }) }, [])).2
        intro p hp
        simp only at hp
        rw [hdict] at hp
        rcases updateAssoc_mem_sub c { comp with currentState := st }
            e.componentDict p hp with h | h
        · rw [h]
          have : compFCsOK comp := hcomps (c, comp) (lookupAssoc_mem _ _ _ hcompEq)
          intro s hs q hq
          exact this s hs q hq
        · exact hcomps p h

theorem applyPressures_frame (failSilently : Bool) :
    ∀ (l : List (String × (ℚ × Bool))) (e : Engine),
    ((exceptState (Engine.applyPressures failSilently e l)).timeRes = e.timeRes) ∧
      ((exceptState (Engine.applyPressures failSilently e l)).componentDict =
        e.componentDict) := by
  intro l
  induction l with
  | nil => intro e; exact ⟨rfl, rfl⟩
  | cons hd tl ih =>
      intro e
      obtain ⟨nd, pv⟩ := hd
      simp only [Engine.applyPressures]
      cases hsp : e.setPressure nd pv.1 pv.2 with
      | ok e1 =>
          simp only [hsp]
          obtain ⟨h1, h2⟩ := ih e1
          obtain ⟨_, _, g3, _, g5, _, _⟩ := setPressure_frame e e1 nd pv.1 pv.2 hsp
          exact ⟨h1.trans g5, h2.trans g3⟩
      | error er =>
          simp only [hsp]
          by_cases hf : failSilently
          · rw [if_pos hf]
            by_cases her : er = .nodeNotFound nd
            · rw [if_pos her]
              exact ⟨rfl, rfl⟩
            · rw [if_neg her]
              exact ih _
          · rw [if_neg hf]
            exact ⟨rfl, rfl⟩

theorem addComponent_timeRes_lb (e : Engine) (comp : PlumbingComponent)
    (mapping : List (String × String)) (stateId : String)
    (pressures : List (String × (ℚ × Bool))) (failSilently : Bool)
    (hcomps : e.compsOK) (hcompOK : compFCsOK comp)
    (hlb : MIN_TIME_RES_MICROS ≤ e.timeRes) :
    MIN_TIME_RES_MICROS ≤
      (exceptState (e.addComponent comp mapping stateId pressures failSilently)).timeRes := by
  unfold Engine.addComponent
  split
  · exact hlb
  · simp only
    have hcomps1 : Engine.compsOK { e with
        componentDict := updateAssoc e.componentDict comp.name comp,
        mapping := updateAssoc e.mapping comp.name mapping } := by
      intro p hp
      rcases updateAssoc_mem_sub comp.name comp e.componentDict p hp with h | h
      · rw [h]; exact hcompOK
      · exact hcomps p h
    have hlb2 := setTimeRes_lb _ comp.name hcomps1 hlb
    set e2 := Engine.setTimeRes { e with
      componentDict := updateAssoc e.componentDict comp.name comp,
      mapping := updateAssoc e.mapping comp.name mapping } comp.name with he2
    cases hlp : Engine.addEdgesLoop comp.name mapping failSilently e2 comp.edges with
    | error pr =>
        have hfr := (addEdgesLoop_frame comp.name mapping failSilently comp.edges e2).1
        rw [hlp] at hfr
        simp only [exceptState] at hfr
        show MIN_TIME_RES_MICROS ≤ pr.2.timeRes
        rw [hfr]
        exact hlb2
    | ok e3 =>
        have hfr3 := (addEdgesLoop_frame comp.name mapping failSilently comp.edges e2).1
        rw [hlp] at hfr3
        simp only [exceptState] at hfr3
        dsimp only
        cases hsc : e3.setComponentState comp.name stateId with
        | error pr =>
            have hfr := setComponentState_timeRes e3 comp.name stateId
            rw [hsc] at hfr
            simp only [exceptState] at hfr
            show MIN_TIME_RES_MICROS ≤ pr.2.timeRes
            rw [hfr, hfr3]
            exact hlb2
        | ok e4 =>
            have hfr4 := setComponentState_timeRes e3 comp.name stateId
            rw [hsc] at hfr4
            simp only [exceptState] at hfr4
            have hfr5 := (applyPressures_frame failSilently pressures e4).1
            show MIN_TIME_RES_MICROS ≤
              (exceptState (Engine.applyPressures failSilently e4 pressures)).timeRes
            rw [hfr5, hfr4, hfr3]
            exact hlb2

theorem setTeqEdges_frame (c st : String) : ∀ (l : List (CompEdge × ℚ)) (e : Engine),
    ((exceptState (Engine.setTeqEdges c st e l)).timeRes = e.timeRes) ∧
      (e.compsOK → (exceptState (Engine.setTeqEdges c st e l)).compsOK) := by
  intro l
  induction l with
  | nil => intro e; exact ⟨rfl, fun h => h⟩
  | cons hd tl ih =>
      intro e
      obtain ⟨edge, teqS⟩ := hd
      simp only [Engine.setTeqEdges]
      by_cases h1 : s_to_micros teqS < TEQ_MIN
      · rw [if_pos h1]
        exact ⟨rfl, fun h => h⟩
      · rw [if_neg h1]
        cases h2 : lookupAssoc e.componentDict c with
        | none => exact ⟨rfl, fun h => h⟩
        | some comp =>
            dsimp only
            cases h3 : lookupAssoc comp.states st with
            | none => exact ⟨rfl, fun h => h⟩
            | some stEdges =>
                dsimp only
                by_cases h4 : (lookupAssoc stEdges edge).isNone
                · rw [if_pos h4]
                  exact ⟨rfl, fun h => h⟩
                · rw [if_neg h4]
                  obtain ⟨ihf, ihok⟩ := ih { e with componentDict :=
                    (updateAssoc e.componentDict c { comp with states :=
                      (updateAssoc comp.states st (updateAssoc stEdges edge
                        (teq_to_FC (s_to_micros teqS)))) }) }
                  refine ⟨ihf, ?_⟩
                  intro hOK
                  apply ihok
                  intro p hp
                  simp only at hp
                  rcases updateAssoc_mem_sub c _ e.componentDict p hp with h | h
                  · rw [h]
                    intro st' hst' q hq
                    simp only at hst'
                    rcases updateAssoc_mem_sub st _ comp.states st' hst' with h5 | h5
                    · rw [h5] at hq
                      simp only at hq
                      rcases updateAssoc_mem_sub edge _ stEdges q hq with h6 | h6
                      · rw [h6]
                        push_neg at h1
                        have := teq_to_FC_bounds (s_to_micros teqS)
                          (lt_of_lt_of_le (by norm_num [TEQ_MIN]) h1)
                        exact ⟨le_of_lt this.1, this.2⟩
                      · have hcomp : compFCsOK comp :=
                          hOK (c, comp) (lookupAssoc_mem _ _ _ h2)
                        exact hcomp (st, stEdges) (lookupAssoc_mem _ _ _ h3) q h6
                    · have hcomp : compFCsOK comp :=
                        hOK (c, comp) (lookupAssoc_mem _ _ _ h2)
                      exact hcomp st' h5 q hq
                  · exact hOK p h

theorem setTeqStates_frame (c : String) :
    ∀ (l : List (String × List (CompEdge × ℚ))) (e : Engine),
    ((exceptState (Engine.setTeqStates c e l)).timeRes = e.timeRes) ∧
      (e.compsOK → (exceptState (Engine.setTeqStates c e l)).compsOK) := by
  intro l
  induction l with
  | nil => intro e; exact ⟨rfl, fun h => h⟩
  | cons hd tl ih =>
      intro e
      obtain ⟨stateId, edgeDict⟩ := hd
      simp only [Engine.setTeqStates]
      cases h2 : lookupAssoc e.componentDict c with
      | none => exact ⟨rfl, fun h => h⟩
      | some comp =>
          dsimp only
          by_cases h3 : (lookupAssoc comp.states stateId).isNone
          · rw [if_pos h3]
            exact ⟨rfl, fun h => h⟩
          · rw [if_neg h3]
            obtain ⟨gf, gok⟩ := setTeqEdges_frame c stateId edgeDict e
            cases hte : Engine.setTeqEdges c stateId e edgeDict with
            | error pr =>
                rw [hte] at gf gok
                exact ⟨gf, gok⟩
            | ok e1 =>
                rw [hte] at gf gok
                simp only [exceptState] at gf gok
                obtain ⟨ihf, ihok⟩ := ih e1
                exact ⟨ihf.trans gf, fun h => ihok (gok h)⟩

theorem setTeq_timeRes_lb (e : Engine) (c : String)
    (whichEdge : List (String × List (CompEdge × ℚ)))
    (hcomps : e.compsOK) (hlb : MIN_TIME_RES_MICROS ≤ e.timeRes) :
    MIN_TIME_RES_MICROS ≤ (exceptState (e.setTeq c whichEdge)).timeRes := by
  unfold Engine.setTeq
  by_cases h1 : (lookupAssoc e.componentDict c).isNone
  · rw [if_pos h1]
    exact hlb
  · rw [if_neg h1]
    obtain ⟨gf, gok⟩ := setTeqStates_frame c whichEdge e
    dsimp only
    cases hts : Engine.setTeqStates c e whichEdge with
    | error pr =>
        rw [hts] at gf
        simp only [exceptState] at gf ⊢
        rw [gf]
        exact hlb
    | ok e1 =>
        rw [hts] at gf gok
        simp only [exceptState] at gf gok
        have he1ok := gok hcomps
        have he1lb : MIN_TIME_RES_MICROS ≤ e1.timeRes := by rw [gf]; exact hlb
        dsimp only
        by_cases hcur : (lookupAssoc whichEdge
            (((lookupAssoc e1.componentDict c).map PlumbingComponent.currentState).getD
              "")).isSome
        · rw [if_pos hcur]
          cases hsc : e1.setComponentState c
              (((lookupAssoc e1.componentDict c).map PlumbingComponent.currentState).getD
                "") with
          | error pr =>
              have hfr := setComponentState_timeRes e1 c
                (((lookupAssoc e1.componentDict c).map PlumbingComponent.currentState).getD "")
              rw [hsc] at hfr
              simp only [exceptState] at hfr ⊢
              rw [hfr]
              exact he1lb
          | ok e2 =>
              have hfr := setComponentState_timeRes e1 c
                (((lookupAssoc e1.componentDict c).map PlumbingComponent.currentState).getD "")
              have hok := setComponentState_compsOK e1 c
                (((lookupAssoc e1.componentDict c).map PlumbingComponent.currentState).getD "")
                he1ok
              rw [hsc] at hfr hok
              simp only [exceptState] at hfr hok ⊢
              exact setTimeRes_lb e2 c hok (by rw [hfr]; exact he1lb)
        · rw [if_neg hcur]
          simp only [exceptState]
          exact setTimeRes_lb e1 c he1ok he1lb

theorem foldSetTimeRes_lb : ∀ (names : List String) (acc : Engine),
    acc.compsOK → MIN_TIME_RES_MICROS ≤ acc.timeRes →
    MIN_TIME_RES_MICROS ≤ (names.foldl Engine.setTimeRes acc).timeRes := by
  intro names
  induction names with
  | nil => intro acc _ h; exact h
  | cons hd tl ih =>
      intro acc hok hlb
      simp only [List.foldl_cons]
      have hok' : (acc.setTimeRes hd).compsOK := by
        intro p hp
        rw [(setTimeRes_dict acc hd).1] at hp
        exact hok p hp
      exact ih _ hok' (setTimeRes_lb acc hd hok hlb)

theorem resolveErrors_frame (g : Engine) (c : String) :
    (resolveErrors g c).componentDict = g.componentDict ∧
      (resolveErrors g c).timeRes = g.timeRes ∧
      (resolveErrors g c).nodes = g.nodes ∧ (resolveErrors g c).edges = g.edges := by
  unfold resolveErrors
  exact ⟨rfl, rfl, rfl, rfl⟩

theorem removeComponent_timeRes_lb (e : Engine) (c : String) (e' : Engine)
    (hcomps : e.compsOK) (h : e.removeComponent c = .ok e') :
    MIN_TIME_RES_MICROS ≤ e'.timeRes := by
  unfold Engine.removeComponent at h
  cases hc : lookupAssoc e.componentDict c with
  | none =>
      rw [hc] at h
      exact absurd h (by simp)
  | some comp =>
      rw [hc] at h
      simp only [Except.ok.injEq] at h
      subst h
      apply foldSetTimeRes_lb
      · intro p hp
        simp only at hp
        have := List.mem_of_mem_filter hp
        rw [(resolveErrors_frame _ c).1] at this
        exact hcomps p this
      · norm_num [MIN_TIME_RES_MICROS, DEFAULT_TIME_RESOLUTION_MICROS]

theorem step_timeRes_lb (e : Engine) (ts : ℚ)
    (hlb : MIN_TIME_RES_MICROS ≤ e.timeRes) :
    MIN_TIME_RES_MICROS ≤ ((e.step ts).state).timeRes := by
  unfold Engine.step
  by_cases h1 : e.nodes = []
  · rw [if_pos h1]; exact hlb
  · rw [if_neg h1]
    by_cases h2 : e.errors ≠ []
    · rw [if_pos h2]; exact hlb
    · rw [if_neg h2]
      by_cases h3 : ts < MIN_TIME_RES_MICROS
      · rw [if_pos h3]; exact hlb
      · rw [if_neg h3]
        push_neg at h3
        have hshr : MIN_TIME_RES_MICROS ≤ (e.shrinkTimeRes ts).timeRes := by
          unfold Engine.shrinkTimeRes
          split
          · exact h3
          · exact hlb
        by_cases h4 : ts.den ≠ 1
        · rw [if_pos h4]
          exact hshr
        · rw [if_neg h4]
          rw [(stepLoop_frame (stepFuel ts (e.shrinkTimeRes ts).timeRes)
            ((e.shrinkTimeRes ts).time + ts) (e.shrinkTimeRes ts) []).2.2.1]
          exact hshr

/-- **C4.** In every reachable engine state, `time_res` stays at or
above `MIN_TIME_RES`: on an engine whose registered components carry
only legal flow coefficients (every stored `FC` is non-negative and at
most `FC_MAX`, which the spec's clamping of `teq` guarantees), each
operation that recomputes the adaptive time resolution —
`_set_time_res`, `add_component`, `set_teq`, `remove_component`, and
`step` — yields a state (also on every raising path) whose `time_res`
is still at least `MIN_TIME_RES`. -/
theorem time_res_lower_bound (e : Engine) (hcomps : e.compsOK)
    (hlb : MIN_TIME_RES_MICROS ≤ e.timeRes) :
    (∀ c, MIN_TIME_RES_MICROS ≤ (e.setTimeRes c).timeRes) ∧
    (∀ comp mapping stateId pressures failSilently, compFCsOK comp →
      MIN_TIME_RES_MICROS ≤
        (exceptState (e.addComponent comp mapping stateId pressures failSilently)).timeRes) ∧
    (∀ c whichEdge,
      MIN_TIME_RES_MICROS ≤ (exceptState (e.setTeq c whichEdge)).timeRes) ∧
    (∀ c e', e.removeComponent c = .ok e' → MIN_TIME_RES_MICROS ≤ e'.timeRes) ∧
    (∀ ts, MIN_TIME_RES_MICROS ≤ ((e.step ts).state).timeRes) :=
  ⟨fun c => setTimeRes_lb e c hcomps hlb,
   fun comp mapping stateId pressures failSilently hcomp =>
     addComponent_timeRes_lb e comp mapping stateId pressures failSilently hcomps hcomp hlb,
   fun c whichEdge => setTeq_timeRes_lb e c whichEdge hcomps hlb,
   fun c e' h => removeComponent_timeRes_lb e c e' hcomps h,
   fun ts => step_timeRes_lb e ts hlb⟩

theorem egD_compsOK : egD.compsOK := by
  intro p hp
  norm_num [egD] at hp
  rw [hp]
  intro st hst q hq
  norm_num [compV] at hst
  rcases hst with h | h <;>
    (rw [h] at hq
     norm_num [FC_MAX, TEQ_MIN] at hq ⊢
     rcases hq with h2 | h2 <;> rw [h2] <;> norm_num)

/-- **C4 (witness).** The lower bound instantiated on the concrete
engine `egD` holding the valve component `compV`. -/
theorem time_res_lower_bound_witness :
    MIN_TIME_RES_MICROS ≤ (egD.setTimeRes "v").timeRes ∧
      (∀ e', egD.removeComponent "v" = .ok e' → MIN_TIME_RES_MICROS ≤ e'.timeRes) :=
  ⟨(time_res_lower_bound egD egD_compsOK
      (by norm_num [egD, MIN_TIME_RES_MICROS])).1 "v",
   fun e' h => (time_res_lower_bound egD egD_compsOK
      (by norm_num [egD, MIN_TIME_RES_MICROS])).2.2.2.1 "v" e' h⟩

/-! ### Claim C7: remove_component cleanup -/

theorem strStarts_imp_strContains (p s : String)
    (h : strStarts (p ++ ".") s = true) : strContains s p = true := by
  unfold strStarts at h
  unfold strContains
  rw [List.any_eq_true]
  refine ⟨0, List.mem_range.mpr (Nat.succ_pos _), ?_⟩
  rw [decide_eq_true_eq, List.drop_zero]
  rw [decide_eq_true_eq] at h
  have htl : (p ++ ".").toList = p.toList ++ ['.'] := by
    show (p ++ ".").data = p.data ++ ['.']
    rw [String.data_append]
  rw [htl, List.length_append, List.length_singleton] at h
  have h3 : s.toList.take p.toList.length
      = (s.toList.take (p.toList.length + 1)).take p.toList.length := by
    rw [List.take_take]
    congr 1
    omega
  rw [h3, h, List.take_left]

theorem lookupAssoc_filter_ne {β : Type} (l : List (String × β)) (c : String) :
    lookupAssoc (l.filter (fun kv => kv.1 ≠ c)) c = none := by
  induction l with
  | nil => rfl
  | cons hd tl ih =>
      obtain ⟨k, v⟩ := hd
      by_cases hk : k = c
      · subst hk
        simpa [List.filter_cons] using ih
      · simpa [List.filter_cons, hk, lookupAssoc] using ih

theorem foldSetTimeRes_frame : ∀ (names : List String) (acc : Engine),
    (names.foldl Engine.setTimeRes acc).nodes = acc.nodes ∧
      (names.foldl Engine.setTimeRes acc).edges = acc.edges ∧
      (names.foldl Engine.setTimeRes acc).errors = acc.errors ∧
      (names.foldl Engine.setTimeRes acc).componentDict = acc.componentDict := by
  intro names
  induction names with
  | nil => intro acc; exact ⟨rfl, rfl, rfl, rfl⟩
  | cons hd tl ih =>
      intro acc
      simp only [List.foldl_cons]
      obtain ⟨h1, h2, h3, h4⟩ := ih (acc.setTimeRes hd)
      obtain ⟨d1, d2, d3, d4, -⟩ := setTimeRes_dict acc hd
      exact ⟨h1.trans d2, h2.trans d3, h3.trans d4, h4.trans d1⟩

theorem errRemovable_base_post (nodes : List String) (c : String) (er : EngError)
    (hnd : ∀ o2, er ≠ EngError.dup o2)
    (h : errRemovable nodes c er = false) :
    errNamesComp er c = false ∧ (∀ n, errNodeRef er = some n → n ∈ nodes) := by
  cases er with
  | invalidComponentName cn =>
      simp only [errRemovable, decide_eq_false_iff_not] at h
      refine ⟨by simp [errNamesComp, h], ?_⟩
      intro n hn
      simp [errNodeRef] at hn
  | invalidComponentNode cn nn =>
      simp only [errRemovable, decide_eq_false_iff_not, not_or, not_not] at h
      refine ⟨by simp [errNamesComp, h.1], ?_⟩
      intro n hn
      simp only [errNodeRef, Option.some.injEq] at hn
      subst hn
      exact h.2
  | invalidNodePressure nn =>
      simp only [errRemovable, decide_eq_false_iff_not, not_not] at h
      refine ⟨rfl, ?_⟩
      intro n hn
      simp only [errNodeRef, Option.some.injEq] at hn
      subst hn
      exact h
  | dup o => exact absurd rfl (hnd o)

theorem resolveErrors_post (g : Engine) (c : String) (hwf : dupWF g.errors) :
    ∀ er ∈ (resolveErrors g c).errors,
      er ∈ g.errors ∧ errNamesComp er c = false ∧
        ∀ n, errNodeRef er = some n → n ∈ g.nodes := by
  intro er her
  simp only [resolveErrors] at her
  obtain ⟨hmem, hdec⟩ := List.mem_filter.mp her
  rw [decide_eq_true_eq] at hdec
  simp only [List.mem_append, not_or] at hdec
  obtain ⟨hn1, hn2⟩ := hdec
  refine ⟨hmem, ?_⟩
  have hbase : ∀ o, o ∈ g.errors → o ∉ g.errors.filter (errRemovable g.nodes c) →
      errRemovable g.nodes c o = false := by
    intro o ho hno
    cases h : errRemovable g.nodes c o with
    | false => rfl
    | true => exact absurd (List.mem_filter.mpr ⟨ho, h⟩) hno
  cases er with
  | invalidComponentName cn =>
      exact errRemovable_base_post g.nodes c _ (fun o2 h => EngError.noConfusion h)
        (hbase _ hmem hn1)
  | invalidComponentNode cn nn =>
      exact errRemovable_base_post g.nodes c _ (fun o2 h => EngError.noConfusion h)
        (hbase _ hmem hn1)
  | invalidNodePressure nn =>
      exact errRemovable_base_post g.nodes c _ (fun o2 h => EngError.noConfusion h)
        (hbase _ hmem hn1)
  | dup o =>
      obtain ⟨homem, hond⟩ := hwf o hmem
      have hno : o ∉ g.errors.filter (errRemovable g.nodes c) := by
        intro hin
        exact hn2 (List.mem_filter.mpr ⟨hmem, by simp [errDupRemovable, hin]⟩)
      have hpost := errRemovable_base_post g.nodes c o hond (hbase o homem hno)
      refine ⟨?_, ?_⟩
      · simpa only [errNamesComp] using hpost.1
      · intro n hn
        simp only [errNodeRef] at hn
        exact hpost.2 n hn

/-- **C7** (amended). For a component `c` registered in the engine,
`remove_component(c)` succeeds and afterwards: every surviving edge is
an original edge whose key does not contain `comp.name` as a substring
(in particular its key does not start with `comp.name ++ "."`); an
original edge whose key avoids the name disappears only because an
endpoint node was dropped; the surviving nodes are exactly the original
nodes that still head at least one name-free edge (networkx `neighbors`
= successors, so nodes keep only out-edges alive); every surviving
error is an original error that does not name `c` and whose referenced
node is still in the graph; and `c` is unregistered. -/
theorem remove_component_cleanup (e : Engine) (c : String) (comp : PlumbingComponent)
    (e' : Engine) (hc : lookupAssoc e.componentDict c = some comp)
    (hwf : dupWF e.errors) (h : e.removeComponent c = .ok e') :
    (∀ ed ∈ e'.edges, ed ∈ e.edges ∧ strContains ed.key comp.name = false ∧
      strStarts (comp.name ++ ".") ed.key = false) ∧
    (∀ ed ∈ e.edges, strContains ed.key comp.name = false → ed ∉ e'.edges →
      ed.src ∉ e'.nodes ∨ ed.dst ∉ e'.nodes) ∧
    (∀ n, n ∈ e'.nodes ↔ n ∈ e.nodes ∧
      (e.edges.filter (fun g2 => ¬ strContains g2.key comp.name)).any
        (fun g2 => g2.src = n) = true) ∧
    (∀ er ∈ e'.errors, er ∈ e.errors ∧ errNamesComp er c = false ∧
      ∀ n, errNodeRef er = some n → n ∈ e'.nodes) ∧
    lookupAssoc e'.componentDict c = none := by
  unfold Engine.removeComponent at h
  rw [hc] at h
  simp only [Except.ok.injEq] at h
  subst h
  simp only [foldSetTimeRes_frame, resolveErrors_frame]
  refine ⟨?_, ?_, ?_, ?_, ?_⟩
  · intro ed hed
    have h1 := (List.mem_filter.mp hed).1
    obtain ⟨hmem, hpred⟩ := List.mem_filter.mp h1
    rw [decide_eq_true_eq] at hpred
    have hcont : strContains ed.key comp.name = false := by
      cases hcc : strContains ed.key comp.name with
      | false => rfl
      | true => exact absurd hcc hpred
    refine ⟨hmem, hcont, ?_⟩
    cases hs : strStarts (comp.name ++ ".") ed.key with
    | false => rfl
    | true =>
        exfalso
        have h2 := strStarts_imp_strContains comp.name ed.key hs
        rw [hcont] at h2
        exact Bool.noConfusion h2
  · intro ed hed hcont hnot
    have h1 : ed ∈ e.edges.filter
        (fun g2 => ¬ strContains g2.key comp.name) :=
      List.mem_filter.mpr ⟨hed, by simp [hcont]⟩
    by_contra hcon
    rw [not_or] at hcon
    obtain ⟨ha, hb⟩ := hcon
    rw [not_not] at ha hb
    exact hnot (List.mem_filter.mpr ⟨h1, by rw [decide_eq_true_eq]; exact ⟨ha, hb⟩⟩)
  · intro n
    exact List.mem_filter
  · intro er her
    obtain ⟨h1, h2, h3⟩ := resolveErrors_post _ c (by exact hwf) er her
    exact ⟨h1, h2, h3⟩
  · exact lookupAssoc_filter_ne _ c

set_option maxHeartbeats 1600000 in
/-- **C7** (counterexample). `remove_component` tests
`component_name in edge[2]` — a substring match, not the prefix match
the claim states: removing component `a` from `egE` also removes both
edges of the unrelated component `ab` (whose keys do not start with
`"a."`), and with them every node of the graph. -/
theorem remove_component_substring_counterexample :
    (⟨"Y", "Z", "ab.f", 0⟩ : GraphEdge) ∈ egE.edges ∧
    strStarts ("a" ++ ".") "ab.f" = false ∧
    egE.removeComponent "a" = .ok egEafter ∧
    egEafter.edges = [] := by
  refine ⟨by norm_num +decide [egE], by decide, ?_, by norm_num +decide [egEafter]⟩
  norm_num +decide [Engine.removeComponent, egE, egEafter, compA, compAB, lookupAssoc,
    resolveErrors, errRemovable, errDupRemovable, strContains, Engine.setTimeRes,
    maxFcState, maxFcStep, teq_to_FC, FC_to_teq, pyInt, updateAssoc,
    DEFAULT_TIME_RESOLUTION_MICROS, DEFAULT_RESOLUTION_SCALE, TEQ_MIN, FC_MAX]

set_option maxHeartbeats 1600000 in
/-- Witness for `remove_component_cleanup` on the concrete engine
`egD`: removing its only component empties the graph and unregisters
the name. -/
theorem remove_component_cleanup_witness :
    egD.removeComponent "v" = .ok egDremoved ∧
    lookupAssoc egDremoved.componentDict "v" = none := by
  have h1 : lookupAssoc egD.componentDict "v" = some compV := by
    norm_num +decide [egD, lookupAssoc]
  have h2 : dupWF egD.errors := by
    intro o ho
    simp [egD] at ho
  have h3 : egD.removeComponent "v" = .ok egDremoved := by
    norm_num +decide [Engine.removeComponent, egD, egDremoved, compV, lookupAssoc,
      resolveErrors, errRemovable, errDupRemovable, strContains,
      DEFAULT_TIME_RESOLUTION_MICROS]
  exact ⟨h3, (remove_component_cleanup egD "v" compV egDremoved h1 h2 h3).2.2.2.2⟩

/-! ### Claim C8: scalar-versus-map return shapes -/

theorem currentStateMany_not_scalar (e : Engine) : ∀ (args : List String)
    (acc : List (String × String)) (s : String),
    e.currentStateMany args acc ≠ .scalar s := by
  intro args
  induction args with
  | nil => intro acc s h; exact QueryOut.noConfusion h
  | cons a rest ih =>
      intro acc s h
      simp only [Engine.currentStateMany] at h
      cases hl : lookupAssoc e.componentDict a with
      | some comp => rw [hl] at h; exact ih _ s h
      | none => rw [hl] at h; exact QueryOut.noConfusion h

theorem currentPressuresMany_not_scalar (e : Engine) : ∀ (args : List String)
    (acc : List (String × ℚ)) (q : ℚ),
    e.currentPressuresMany args acc ≠ .scalar q := by
  intro args
  induction args with
  | nil => intro acc q h; exact QueryOut.noConfusion h
  | cons a rest ih =>
      intro acc q h
      simp only [Engine.currentPressuresMany] at h
      cases hl : (lookupAssoc e.body a).isSome with
      | true => rw [hl] at h; simp only [if_true] at h; exact ih _ q h
      | false => rw [hl] at h; simp only [Bool.false_eq_true, if_false] at h
                 exact QueryOut.noConfusion h

theorem currentFCMany_not_scalar (e : Engine) : ∀ (args : List FCArg)
    (acc : List ((String × String × String) × ℚ)) (q : ℚ),
    e.currentFCMany args acc ≠ .scalar q := by
  intro args
  induction args with
  | nil => intro acc q h; exact QueryOut.noConfusion h
  | cons a rest ih =>
      intro acc q h
      cases a with
      | comp c =>
          simp only [Engine.currentFCMany] at h
          cases hl : (lookupAssoc e.componentDict c).isSome with
          | true => rw [hl] at h; simp only [if_true] at h; exact ih _ q h
          | false => rw [hl] at h; simp only [Bool.false_eq_true, if_false] at h
                     exact QueryOut.noConfusion h
      | edge k =>
          simp only [Engine.currentFCMany] at h
          cases hl : e.edges.find? (fun ed => (ed.src, ed.dst, ed.key) = k) with
          | some ed => rw [hl] at h; exact ih _ q h
          | none => rw [hl] at h; exact QueryOut.noConfusion h

/-- **C8** (amended). Shape of the variadic accessors on the flattened
argument list: `current_state` and `current_pressures` return a scalar
for exactly one known identifier; `current_FC` returns a scalar only
when the single identifier is an existing edge id — a single component
name yields a dict of that component's edges, as its docstring says;
with no arguments each returns the full mapping; with two or more
identifiers none of them ever returns a scalar. -/
theorem query_scalar_vs_map (e : Engine) :
    (∀ a comp, lookupAssoc e.componentDict a = some comp →
      e.currentState [a] = .scalar comp.currentState) ∧
    (∀ a, (lookupAssoc e.body a).isSome = true →
      e.currentPressures [a] = .scalar (e.pressureOf a)) ∧
    (∀ k ed, e.edges.find? (fun g2 => (g2.src, g2.dst, g2.key) = k) = some ed →
      e.currentFC [.edge k] = .scalar ed.fc) ∧
    (∀ c, (lookupAssoc e.componentDict c).isSome = true →
      ∃ m, e.currentFC [.comp c] = .mapOut m) ∧
    (e.currentState [] = .mapOut (e.componentDict.map
        (fun p => (p.2.name, p.2.currentState))) ∧
      e.currentPressures [] = .mapOut (e.nodes.map (fun nd => (nd, e.pressureOf nd))) ∧
      e.currentFC [] = .mapOut (e.edges.map
        (fun ed => ((ed.src, ed.dst, ed.key), ed.fc)))) ∧
    (∀ a b rest s, e.currentState (a :: b :: rest) ≠ .scalar s) ∧
    (∀ a b rest q, e.currentPressures (a :: b :: rest) ≠ .scalar q) ∧
    (∀ x y rest q, e.currentFC (x :: y :: rest) ≠ .scalar q) := by
  refine ⟨?_, ?_, ?_, ?_, ⟨rfl, rfl, rfl⟩, ?_, ?_, ?_⟩
  · intro a comp h
    simp only [Engine.currentState, h]
  · intro a h
    simp only [Engine.currentPressures, h, if_true]
  · intro k ed h
    simp only [Engine.currentFC, h]
  · intro c h
    simp only [Engine.currentFC, Engine.currentFCMany, h, if_true]
    exact ⟨_, rfl⟩
  · intro a b rest s
    exact currentStateMany_not_scalar e (a :: b :: rest) [] s
  · intro a b rest q
    exact currentPressuresMany_not_scalar e (a :: b :: rest) [] q
  · intro x y rest q
    cases x with
    | comp c => exact currentFCMany_not_scalar e _ [] q
    | edge k => exact currentFCMany_not_scalar e _ [] q

set_option maxHeartbeats 800000 in
/-- **C8** (counterexample). `current_FC` invoked with exactly one
identifier that is a component name returns a dict of that component's
edges, not a scalar, contradicting the uniform scalar-for-one-identifier
rule. -/
theorem current_FC_single_component_counterexample :
    egD.currentFC [.comp "v"] =
      .mapOut [(("A", "B", "v.f"), 1/2000), (("B", "A", "v.b"), 1/2000)] ∧
    ∀ q, egD.currentFC [.comp "v"] ≠ .scalar q := by
  have h : egD.currentFC [.comp "v"] =
      .mapOut [(("A", "B", "v.f"), 1/2000), (("B", "A", "v.b"), 1/2000)] := by
    norm_num +decide [Engine.currentFC, Engine.currentFCMany, egD, compV,
      lookupAssoc, strStarts, updateAssoc]
  refine ⟨h, fun q hq => ?_⟩
  rw [h] at hq
  exact QueryOut.noConfusion hq

set_option maxHeartbeats 800000 in
/-- Witness for `query_scalar_vs_map` on the concrete engine `egD`:
one known component name gives a scalar state, and `current_FC` of that
single component name gives a dict. -/
theorem query_scalar_vs_map_witness :
    egD.currentState ["v"] = .scalar "open" ∧
    (∃ m, egD.currentFC [.comp "v"] = .mapOut m) := by
  have h1 : lookupAssoc egD.componentDict "v" = some compV := by
    norm_num +decide [egD, lookupAssoc]
  have h2 := (query_scalar_vs_map egD).1 "v" compV h1
  refine ⟨?_, (query_scalar_vs_map egD).2.2.2.1 "v" (by rw [h1]; rfl)⟩
  rw [h2]
  rfl

/-! ### Claim C6: load_graph error policy -/

set_option maxHeartbeats 1600000 in
/-- **C6** (counterexample). `add_component` re-raises
`"Node ... not found in graph."` even in fail-silently mode, so
`load_graph` raises in the middle of its per-component loop: loading
`c1` (whose unmapped node keeps its edge out of the graph) and then
`c2` raises `nodeNotFound "A"` while processing `c1`, with `c2` never
loaded — even though `c2` introduces node `A`, as loading `c2` alone
shows.  The raise is neither at the end of construction nor limited to
nodes "never introduced by any component". -/
theorem load_graph_midloop_raise_counterexample :
    mkEngine [("c1", compN1), ("c2", compN2)] egLmapping egLpressures egLstates
      = .error (.nodeNotFound "A", egLmid) ∧
    mkEngine [("c2", compN2)] [("c2", [("1", "A"), ("2", "B")])] egLpressures
      [("c2", "open")] = .ok egLok ∧
    "A" ∈ egLok.nodes := by
  refine ⟨?_, ?_, by norm_num +decide [egLok]⟩ <;>
    norm_num +decide [mkEngine, Engine.loadGraph, Engine.loadLoop,
      Engine.checkPressureNodes, Engine.addComponent, Engine.addEdgesLoop,
      Engine.addEdge, addNodeIfAbsent, Engine.setComponentState, sceStep,
      Engine.applyPressures, Engine.setPressure, Engine.setTimeRes,
      maxFcState, maxFcStep, teq_to_FC, FC_to_teq, pyInt, updateAssoc,
      lookupAssoc, addError, Engine.pressureOf, compN1, compN2, egLmapping,
      egLpressures, egLstates, egLmid, egLok, ATM, DEFAULT_TIME_RESOLUTION_MICROS,
      DEFAULT_RESOLUTION_SCALE, TEQ_MIN, FC_MAX]

theorem addEdgesLoop_silent (name : String) (m : List (String × String)) :
    ∀ (l : List CompEdge) (e : Engine), ∃ e',
      Engine.addEdgesLoop name m true e l = .ok e' ∧
      e'.componentDict = e.componentDict ∧ e'.mapping = e.mapping := by
  intro l
  induction l with
  | nil => intro e; exact ⟨e, rfl, rfl, rfl⟩
  | cons ce rest ih =>
      intro e
      cases hs : (lookupAssoc m ce.src).isSome <;>
        cases he : (lookupAssoc m ce.dst).isSome <;>
          simp only [Engine.addEdgesLoop, hs, he] <;>
          · obtain ⟨e', h1, h2, h3⟩ := ih _
            exact ⟨e', h1, h2, h3⟩

theorem applyPressures_silent_err_kind :
    ∀ (l : List (String × (ℚ × Bool))) (e : Engine) (er : PlumbErr) (g : Engine),
    Engine.applyPressures true e l = .error (er, g) → ∃ n, er = .nodeNotFound n := by
  intro l
  induction l with
  | nil => intro e er g h; exact absurd h (by simp [Engine.applyPressures])
  | cons hd tl ih =>
      intro e er g h
      obtain ⟨node, pv⟩ := hd
      simp only [Engine.applyPressures] at h
      cases hsp : e.setPressure node pv.1 pv.2 with
      | ok e' =>
          rw [hsp] at h
          exact ih _ _ _ h
      | error er' =>
          rw [hsp] at h
          dsimp only at h
          rw [if_pos trivial] at h
          by_cases he : er' = .nodeNotFound node
          · rw [if_pos he] at h
            simp only [Except.error.injEq, Prod.mk.injEq] at h
            exact ⟨node, h.1.symm.trans he⟩
          · rw [if_neg he] at h
            exact ih _ _ _ h

theorem setComponentState_err_kind (e : Engine) (c st : String) (er : PlumbErr)
    (g : Engine) (hm : (lookupAssoc e.mapping c).isSome = true)
    (hd : (lookupAssoc e.componentDict c).isSome = true)
    (h : e.setComponentState c st = .error (er, g)) :
    er = .stateNotFound st := by
  unfold Engine.setComponentState at h
  cases hl : lookupAssoc e.mapping c with
  | none => rw [hl] at hm; exact absurd hm (by simp)
  | some mv =>
      rw [hl] at h
      cases hcd : lookupAssoc e.componentDict c with
      | none => rw [hcd] at hd; exact absurd hd (by simp)
      | some comp =>
          rw [hcd] at h
          simp only [Option.isNone_some, Bool.false_eq_true, if_false] at h
          by_cases hst : (lookupAssoc comp.states st).isNone = true
          · rw [if_pos hst] at h
            simp only [Except.error.injEq, Prod.mk.injEq] at h
            exact h.1.symm
          · rw [if_neg hst] at h
            exact absurd h (by simp)

theorem addComponent_silent_err_kind (e : Engine) (comp : PlumbingComponent)
    (m : List (String × String)) (st : String) (ps : List (String × (ℚ × Bool)))
    (er : PlumbErr) (g : Engine)
    (h : e.addComponent comp m st ps true = .error (er, g)) :
    (∃ n, er = .nodeNotFound n) ∨ er = .stateNotFound st := by
  unfold Engine.addComponent at h
  rw [if_neg (by simp)] at h
  dsimp only at h
  obtain ⟨e3, h3, hd3, hm3⟩ := addEdgesLoop_silent comp.name m comp.edges
    (({ e with componentDict := updateAssoc e.componentDict comp.name comp,
               mapping := updateAssoc e.mapping comp.name m }).setTimeRes comp.name)
  rw [h3] at h
  dsimp only at h
  cases hscs : e3.setComponentState comp.name st with
  | error pr =>
      rw [hscs] at h
      obtain ⟨er', g'⟩ := pr
      simp only [Except.error.injEq, Prod.mk.injEq] at h
      refine Or.inr ?_
      rw [← h.1]
      refine setComponentState_err_kind e3 comp.name st er' g' ?_ ?_ hscs
      · rw [hm3, (setTimeRes_dict _ _).2.2.2.2.2.2.1]
        dsimp only
        rw [lookupAssoc_updateAssoc_self]
        rfl
      · rw [hd3, (setTimeRes_dict _ _).1]
        dsimp only
        rw [lookupAssoc_updateAssoc_self]
        rfl
  | ok e4 =>
      rw [hscs] at h
      dsimp only at h
      exact Or.inl (applyPressures_silent_err_kind ps e4 er g h)

theorem checkPressureNodes_all_ok : ∀ (ps : List (String × (ℚ × Bool))) (e : Engine),
    (∀ p ∈ ps, p.1 ∈ e.nodes) → Engine.checkPressureNodes e ps = .ok e := by
  intro ps
  induction ps with
  | nil => intro e _; rfl
  | cons hd tl ih =>
      intro e hall
      obtain ⟨node, pv⟩ := hd
      simp only [Engine.checkPressureNodes]
      rw [if_pos (hall _ (List.mem_cons_self _ _))]
      exact ih e (fun p hp => hall p (List.mem_cons_of_mem _ hp))

theorem checkPressureNodes_err : ∀ (ps : List (String × (ℚ × Bool))) (e : Engine)
    (er : PlumbErr) (g : Engine),
    Engine.checkPressureNodes e ps = .error (er, g) →
    g = e ∧ ∃ p ∈ ps, er = .nodeNotFound p.1 ∧ p.1 ∉ e.nodes := by
  intro ps
  induction ps with
  | nil => intro e er g h; exact absurd h (by simp [Engine.checkPressureNodes])
  | cons hd tl ih =>
      intro e er g h
      obtain ⟨node, pv⟩ := hd
      simp only [Engine.checkPressureNodes] at h
      by_cases hn : node ∈ e.nodes
      · rw [if_pos hn] at h
        obtain ⟨hg, p, hp, h1, h2⟩ := ih e er g h
        exact ⟨hg, p, List.mem_cons_of_mem _ hp, h1, h2⟩
      · rw [if_neg hn] at h
        simp only [Except.error.injEq, Prod.mk.injEq] at h
        exact ⟨h.2.symm, (node, pv), List.mem_cons_self _ _, h.1.symm, hn⟩

theorem loadLoop_err_kind (ips : List (String × (ℚ × Bool))) (ists : List (String × String)) :
    ∀ (comps : List (String × PlumbingComponent)) (e : Engine) (er : PlumbErr) (g : Engine),
    Engine.loadLoop ips ists e comps = .error (er, g) →
    (∃ n, er = .nodeNotFound n) ∨ (∃ s, er = .stateNotFound s) := by
  intro comps
  induction comps with
  | nil => intro e er g h; exact absurd h (by simp [Engine.loadLoop])
  | cons hd tl ih =>
      intro e er g h
      obtain ⟨name, comp⟩ := hd
      simp only [Engine.loadLoop] at h
      generalize hE1 : (if comp.valid = true then e
        else { e with errors := addError (.invalidComponentName name) e.errors }) = E1 at h
      by_cases hmk : (lookupAssoc E1.mapping name).isSome = true
      all_goals by_cases hsk : (lookupAssoc ists name).isSome = true
      all_goals first
        | (rw [if_pos (fun hab => hmk hab.1)] at h
           exact ih _ er g h)
        | (rw [if_pos (fun hab => hsk hab.2)] at h
           exact ih _ er g h)
        | (rw [if_neg (not_not_intro ⟨hmk, hsk⟩)] at h
           split at h
           · rename_i pr heq
             obtain ⟨er', g'⟩ := pr
             simp only [Except.error.injEq, Prod.mk.injEq] at h
             obtain ⟨h1, h2⟩ := h
             subst h1
             rcases addComponent_silent_err_kind _ _ _ _ _ _ _ heq with ⟨n, hn⟩ | hs
             · exact Or.inl ⟨n, hn⟩
             · exact Or.inr ⟨_, hs⟩
           · exact ih _ er g h)

/-- **C6** (amended). `load_graph` accumulates the per-component faults
the claim lists (invalid component, name missing from mapping, name
missing from initial states, invalid node pressure) without raising:
any raise out of `load_graph` is either a `"Node ... not found in
graph."` error or an unknown-state error.  However the node-not-found
raise is NOT confined to the end of construction: `add_component`
re-raises it from the per-component pressure loop even in fail-silently
mode.  Only when the component loop completes does the final check run:
it returns the loop's engine unchanged when every `initial_pressures`
node is in the graph, and otherwise raises node-not-found at the end,
with the fully loaded engine as the state. -/
theorem load_graph_error_policy (e : Engine)
    (comps : List (String × PlumbingComponent))
    (mapping : List (String × List (String × String)))
    (ips : List (String × (ℚ × Bool)))
    (ists : List (String × String)) :
    (∀ er g, e.loadGraph comps mapping ips ists = .error (er, g) →
      (∃ n, er = .nodeNotFound n) ∨ (∃ s, er = .stateNotFound s)) ∧
    (∀ e1, Engine.loadLoop ips ists
        { e with componentDict := comps, mapping := mapping,
                 nodes := [], edges := [], body := [], errors := [] } comps = .ok e1 →
      ((∀ p ∈ ips, p.1 ∈ e1.nodes) → e.loadGraph comps mapping ips ists = .ok e1) ∧
      (∀ er g, e.loadGraph comps mapping ips ists = .error (er, g) →
        g = e1 ∧ ∃ p ∈ ips, er = .nodeNotFound p.1 ∧ p.1 ∉ e1.nodes)) := by
  constructor
  · intro er g h
    simp only [Engine.loadGraph] at h
    cases hl : Engine.loadLoop ips ists
        { e with componentDict := comps, mapping := mapping,
                 nodes := [], edges := [], body := [], errors := [] } comps with
    | error pr =>
        rw [hl] at h
        obtain ⟨er', g'⟩ := pr
        simp only [Except.error.injEq, Prod.mk.injEq] at h
        obtain ⟨h1, h2⟩ := h
        subst h1
        exact loadLoop_err_kind ips ists comps _ _ _ hl
    | ok e1 =>
        rw [hl] at h
        obtain ⟨hg, p, hp, h1, h2⟩ := checkPressureNodes_err ips e1 er g h
        exact Or.inl ⟨p.1, h1⟩
  · intro e1 h1
    constructor
    · intro hall
      simp only [Engine.loadGraph]
      rw [h1]
      exact checkPressureNodes_all_ok ips e1 hall
    · intro er g h
      simp only [Engine.loadGraph] at h
      rw [h1] at h
      exact checkPressureNodes_err ips e1 er g h

set_option maxHeartbeats 1600000 in
/-- Witness for `load_graph_error_policy`: loading `c2` alone completes
the component loop, every pressure node is in the graph, and the final
check returns the loaded engine. -/
theorem load_graph_error_policy_witness :
    Engine.loadGraph
      { nodes := [], edges := [], body := [], fixedPressures := [], componentDict := [],
        mapping := [], timeRes := DEFAULT_TIME_RESOLUTION_MICROS, time := 0, errors := [] }
      [("c2", compN2)] [("c2", [("1", "A"), ("2", "B")])] egLpressures [("c2", "open")]
      = .ok egLok := by
  have h1 : Engine.loadLoop egLpressures [("c2", "open")]
      { nodes := ([] : List String), edges := [], body := [], fixedPressures := [],
        componentDict := [("c2", compN2)], mapping := [("c2", [("1", "A"), ("2", "B")])],
        timeRes := DEFAULT_TIME_RESOLUTION_MICROS, time := 0, errors := [] }
      [("c2", compN2)] = .ok egLok := by
    norm_num +decide [Engine.loadLoop, Engine.addComponent, Engine.addEdgesLoop,
      Engine.addEdge, addNodeIfAbsent, Engine.setComponentState, sceStep,
      Engine.applyPressures, Engine.setPressure, Engine.setTimeRes,
      maxFcState, maxFcStep, teq_to_FC, FC_to_teq, pyInt, updateAssoc,
      lookupAssoc, addError, compN2, egLpressures, egLok, ATM,
      DEFAULT_TIME_RESOLUTION_MICROS, DEFAULT_RESOLUTION_SCALE, TEQ_MIN, FC_MAX]
  have hall : ∀ p ∈ egLpressures, p.1 ∈ egLok.nodes := by
    intro p hp
    simp only [egLpressures, List.mem_cons, List.not_mem_nil, or_false] at hp
    subst hp
    norm_num +decide [egLok]
  exact ((load_graph_error_policy
      { nodes := [], edges := [], body := [], fixedPressures := [], componentDict := [],
        mapping := [], timeRes := DEFAULT_TIME_RESOLUTION_MICROS, time := 0, errors := [] }
      [("c2", compN2)] [("c2", [("1", "A"), ("2", "B")])] egLpressures
      [("c2", "open")]).2 egLok h1).1 hall
